import Mathlib

set_option maxHeartbeats 1000000
set_option maxRecDepth 10000

namespace Mypager

/-!
Shallow embedding of the paging text viewer `mypager.c`.

Bytes are modelled as `Nat` (their ASCII codes); the fixed backing store
`char buffer[BUFFER_SIZE]` is a `List Nat` of length `Cp` (the capacity is a
parameter so that capacity-dependence can be stated); the open file is a list
of source bytes not yet delivered by `read`, plus a flag saying whether, once
those bytes run out, a further `read` reports an I/O failure (-1) instead of
end of file (0).  A blocking `read` on a regular file delivers
`min requested remaining` bytes, and delivers 0 when 0 bytes are requested.
Machine ints only ever hold small counts here, so no overflow reduction is
needed; `buffer_end` is an `Int` because `refill_buffer` sets it to `-1`.
-/

/-- Delimiter bytes of the word scanner: space (32), line feed (10), tab (9),
mirroring the `switch` in `fetch_next_word`.  Carriage return (13) falls into
the `default:` arm, so it is an ordinary content byte. -/
def isDelim (b : Nat) : Bool := b == 32 || b == 10 || b == 9

/-- Constant `LINE_WIDTH` from mypager.c. -/
def LINE_WIDTH : Nat := 80

/-- Constant `PAGE_SIZE` from mypager.c. -/
def PAGE_SIZE : Nat := 20

/-- Constant `BUFFER_SIZE = (LINE_WIDTH + 1) * PAGE_SIZE` from mypager.c. -/
def BUFFER_SIZE : Nat := (LINE_WIDTH + 1) * PAGE_SIZE

/-- Byte codes of `"=== EOF ===\n"`, printed by `display_page` at end of input. -/
def eofSentinel : List Nat := [61, 61, 61, 32, 69, 79, 70, 32, 61, 61, 61, 10]

/-- Byte codes of `"(error reading file)\n"`, printed by `display_page` on a read error. -/
def errSentinel : List Nat :=
  [40, 101, 114, 114, 111, 114, 32, 114, 101, 97, 100, 105, 110, 103, 32,
   102, 105, 108, 101, 41, 10]

/-- Session state of the pager: the backing store `buffer`, the window cursors
`buffer_start` and `buffer_end`, the flag `buffer_has_data`, and the byte
source (`fd`), modelled by the undelivered bytes `src` and the failure flag
`srcErr`. -/
structure PState where
  store : List Nat
  bstart : Nat
  bend : Int
  src : List Nat
  srcErr : Bool
  hasData : Bool
deriving DecidableEq

/-- Number of bytes in the logical window `[buffer_start, buffer_end]`. -/
def wlen (s : PState) : Nat := (s.bend + 1 - (s.bstart : Int)).toNat

/-- The unconsumed bytes currently held in the window. -/
def window (s : PState) : List Nat := (s.store.drop s.bstart).take (wlen s)

/-- All unconsumed bytes: window contents followed by the undelivered source bytes. -/
def unconsumed (s : PState) : List Nat := window s ++ s.src

/-- Overwrite `store` at offset `off` with `data`: the effect of
`memcpy(buffer + off, data, len)` or of `read(fd, buffer + off, len)`. -/
def listWrite (store : List Nat) (off : Nat) (data : List Nat) : List Nat :=
  store.take off ++ data ++ store.drop (off + data.length)

/-- Read `count` bytes of `store` starting at `start`: the effect of
`memcpy(dest, buffer + start, count)`.  Out-of-range cells read as 0 (they are
never reached while the window invariant holds). -/
def copyOut (store : List Nat) (start count : Nat) : List Nat :=
  (List.range count).map (fun i => store.getD (start + i) 0)

/-- Function `refill_buffer(start)` of mypager.c: reset `buffer_start` to 0 and
`buffer_end` to `start - 1`, `read` up to `BUFFER_SIZE - start` fresh bytes into
the store at offset `start`, and on success add the byte count to `buffer_end`.
Returns the value of `read`: positive count, 0 at end of file (also when 0
bytes were requested), -1 on failure. -/
def refill_buffer (Cp : Nat) (s : PState) (start : Nat) : PState × Int :=
  let req := Cp - start
  let n := min req s.src.length
  if 0 < n then
    ({ s with store := listWrite s.store start (s.src.take n)
            , bstart := 0
            , bend := (start : Int) - 1 + (n : Int)
            , src := s.src.drop n
            , hasData := true }, (n : Int))
  else if s.srcErr && 0 < req then
    ({ s with bstart := 0, bend := (start : Int) - 1, hasData := false }, -1)
  else
    ({ s with bstart := 0, bend := (start : Int) - 1, hasData := false }, 0)

/-- Result of `fetch_next_word`: a positive count with the copied word
(`found`), 0 (`eof`), -1 (`ioerr`), or -2 (`overlong`). -/
inductive WordRes where
  | found (w : List Nat)
  | eof
  | ioerr
  | overlong
deriving DecidableEq

/-- Exit of the scan loop of `fetch_next_word` with `more = 0`:
`memcpy(word, buffer + start, count); buffer_start += count;`. -/
def finishWord (s : PState) (start count : Nat) : WordRes × PState :=
  (.found (copyOut s.store start count), { s with bstart := s.bstart + count })

/-- One iteration of the scan loop of `fetch_next_word` per unit of fuel; the
loop runs `while (more && count < max_size + 1)`, so the fuel is
`max_size + 1 - count` and exhausted fuel is exactly the `more` exit that
returns -2.  An iteration first refills when `start + count > buffer_end`
(compacting the `count` scanned bytes to the front of the store when
`count > 0`, and returning 0 / -1 / a final word as `refill_buffer` directs),
then examines the byte at `start + count`: a delimiter ends the word
(`more = 0`, `count++`), anything else (including carriage return) just
advances `count`.  After a successful refill the window is nonempty at
position `count`, so re-checking the guard is unnecessary and the byte is
examined in the same iteration, exactly as in the C loop body. -/
def fetchWordAux (Cp : Nat) : PState → Nat → Nat → Nat → WordRes × PState
  | s, _, _, 0 => (.overlong, s)
  | s, start, count, fuel + 1 =>
    if s.bend < ((start + count : Nat) : Int) then
      let store1 := if 0 < count then listWrite s.store 0 (copyOut s.store s.bstart count)
                    else s.store
      let rr := refill_buffer Cp { s with store := store1 } count
      if rr.2 = 0 then
        if 0 < count then finishWord rr.1 rr.1.bstart count
        else (.eof, rr.1)
      else if rr.2 = -1 then (.ioerr, rr.1)
      else
        if isDelim (rr.1.store.getD (rr.1.bstart + count) 0) then
          finishWord rr.1 rr.1.bstart (count + 1)
        else fetchWordAux Cp rr.1 rr.1.bstart (count + 1) fuel
    else
      if isDelim (s.store.getD (start + count) 0) then finishWord s start (count + 1)
      else fetchWordAux Cp s start (count + 1) fuel

/-- Function `fetch_next_word(word, max_size)` of mypager.c. -/
def fetch_next_word (Cp : Nat) (s : PState) (max_size : Nat) : WordRes × PState :=
  fetchWordAux Cp s s.bstart 0 (max_size + 1)

/-- Loop of `fetch_next_line` per unit of fuel.  Each consuming iteration
appends a word of at least one byte and the loop continues only while the
accumulated `count` stays below `W`, so `W + 1` units of fuel are never
exhausted (theorem `fetchLineAux_fuel_stable`); the fuel-0 fallback returns
the accumulated line like a normal `more = 0` exit. -/
def fetchLineAux (Cp W : Nat) : PState → List Nat → Nat → Nat → Int × List Nat × PState
  | s, line, count, 0 => ((count : Int), line, s)
  | s, line, count, fuel + 1 =>
    match fetch_next_word Cp s (W - count) with
    | (.found w, s') =>
      if w.getD (w.length - 1) 0 = 10 ∨ W ≤ count + w.length then
        (((count + w.length : Nat) : Int), line ++ w, s')
      else fetchLineAux Cp W s' (line ++ w) (count + w.length) fuel
    | (.eof, s') => ((count : Int), line, s')
    | (.overlong, s') => ((count : Int), line, s')
    | (.ioerr, s') => (-1, line, s')

/-- Function `fetch_next_line(line)` of mypager.c: repeatedly fetch words with
budget `LINE_WIDTH - count`, appending each to the line; stop with the line
when a word ends in a line feed or `count` reaches `LINE_WIDTH`, stop with the
accumulated `count` on 0 (EOF) or -2 (overlong), and return -1 on a read
error.  The returned list holds exactly the `count` line bytes. -/
def fetch_next_line (Cp W : Nat) (s : PState) : Int × List Nat × PState :=
  fetchLineAux Cp W s [] 0 (W + 1)

/-- Loop of `display_page` over the remaining line slots of the page.  For a
line with positive count the line bytes are written (`content` collects them)
and a line feed is appended to the output when the line's last byte is not
already one; on 0 the EOF sentinel is printed and on negative the error
sentinel, both returning 0; after `PAGE_SIZE` lines it returns 1. -/
def displayAux (Cp W : Nat) : PState → List Nat → List Nat → Nat → Int × List Nat × List Nat × PState
  | s, content, output, 0 => (1, content, output, s)
  | s, content, output, n + 1 =>
    let r := fetch_next_line Cp W s
    if 0 < r.1 then
      let nl : List Nat := if r.2.1.getD (r.1.toNat - 1) 0 ≠ 10 then [10] else []
      displayAux Cp W r.2.2 (content ++ r.2.1) (output ++ r.2.1 ++ nl) n
    else if r.1 = 0 then (0, content, output ++ eofSentinel, r.2.2)
    else (0, content, output ++ errSentinel, r.2.2)

/-- Function `display_page()` of mypager.c.  The result is the status (1 =
pages may remain, 0 = stream ended or errored), the bytes passed to `fwrite`
(the file content that was rendered), the full rendered output (content plus
inserted line feeds plus any sentinel), and the new state. -/
def display_page (Cp W P : Nat) (s : PState) : Int × List Nat × List Nat × PState :=
  displayAux Cp W s [] [] P

/-- Command loop of `main`: a do-while seeded with command `'f'` (102).  The
current command is executed (only `'f'` does anything: it renders a page,
and its return status is ignored), then the next keystroke is read; `'q'`
(113) ends the loop, anything else loops.  An exhausted key list ends the
session like `'q'`.  Returns the accumulated content bytes and rendered
output of the whole session. -/
def sessionLoop (Cp W P : Nat) : PState → Nat → List Nat → List Nat → List Nat → List Nat × List Nat
  | s, cmd, content, output, keys =>
    let t :=
      if cmd = 102 then
        let d := display_page Cp W P s
        (d.2.2.2, content ++ d.2.1, output ++ d.2.2.1)
      else (s, content, output)
    match keys with
    | [] => (t.2.1, t.2.2)
    | k :: rest =>
      if k = 113 then (t.2.1, t.2.2)
      else sessionLoop Cp W P t.1 k t.2.1 t.2.2 rest

/-- State at program start: zero-initialised globals (`buffer_start = 0`,
`buffer_end = 0`, `buffer_has_data = 0`) and the file just opened. -/
def initState (Cp : Nat) (input : List Nat) : PState :=
  { store := List.replicate Cp 0, bstart := 0, bend := 0, src := input
  , srcErr := false, hasData := false }

/-- Function `main` after opening the file: `refill_buffer(0)`, then the
command loop seeded with `'f'`. -/
def runSession (Cp W P : Nat) (input keys : List Nat) : List Nat × List Nat :=
  sessionLoop Cp W P (refill_buffer Cp (initState Cp input) 0).1 102 [] [] keys

/-!  Capacity-free specification of the same pipeline, acting directly on the
sequence `U` of unconsumed bytes.  The simulation theorems below show the
buffered functions implement it whenever the scan budget fits the capacity. -/

/-- Abstract word scan over the unconsumed byte sequence. -/
def scanWord (U : List Nat) : Nat → Nat → WordRes × List Nat
  | _, 0 => (.overlong, U)
  | count, fuel + 1 =>
    if count < U.length then
      if isDelim (U.getD count 0) then (.found (U.take (count + 1)), U.drop (count + 1))
      else scanWord U (count + 1) fuel
    else if count = 0 then (.eof, U)
    else (.found (U.take count), U.drop count)

/-- Abstract `fetch_next_word`. -/
def wordSpec (U : List Nat) (max_size : Nat) : WordRes × List Nat := scanWord U 0 (max_size + 1)

/-- Abstract loop of `fetch_next_line`. -/
def lineSpecAux (W : Nat) : List Nat → List Nat → Nat → Nat → Int × List Nat × List Nat
  | U, line, count, 0 => ((count : Int), line, U)
  | U, line, count, fuel + 1 =>
    match wordSpec U (W - count) with
    | (.found w, U') =>
      if w.getD (w.length - 1) 0 = 10 ∨ W ≤ count + w.length then
        (((count + w.length : Nat) : Int), line ++ w, U')
      else lineSpecAux W U' (line ++ w) (count + w.length) fuel
    | (.eof, U') => ((count : Int), line, U')
    | (.overlong, U') => ((count : Int), line, U')
    | (.ioerr, U') => (-1, line, U')

/-- Abstract `fetch_next_line`. -/
def lineSpec (W : Nat) (U : List Nat) : Int × List Nat × List Nat := lineSpecAux W U [] 0 (W + 1)

/-- Abstract loop of `display_page`. -/
def displaySpecAux (W : Nat) : List Nat → List Nat → List Nat → Nat → Int × List Nat × List Nat × List Nat
  | U, content, output, 0 => (1, content, output, U)
  | U, content, output, n + 1 =>
    let r := lineSpec W U
    if 0 < r.1 then
      let nl : List Nat := if r.2.1.getD (r.1.toNat - 1) 0 ≠ 10 then [10] else []
      displaySpecAux W r.2.2 (content ++ r.2.1) (output ++ r.2.1 ++ nl) n
    else if r.1 = 0 then (0, content, output ++ eofSentinel, r.2.2)
    else (0, content, output ++ errSentinel, r.2.2)

/-- Abstract `display_page`. -/
def displaySpec (W P : Nat) (U : List Nat) : Int × List Nat × List Nat × List Nat :=
  displaySpecAux W U [] [] P

/-- Abstract command loop. -/
def sessionSpecLoop (W P : Nat) : List Nat → Nat → List Nat → List Nat → List Nat → List Nat × List Nat
  | U, cmd, content, output, keys =>
    let t :=
      if cmd = 102 then
        let d := displaySpec W P U
        (d.2.2.2, content ++ d.2.1, output ++ d.2.2.1)
      else (U, content, output)
    match keys with
    | [] => (t.2.1, t.2.2)
    | k :: rest =>
      if k = 113 then (t.2.1, t.2.2)
      else sessionSpecLoop W P t.1 k t.2.1 t.2.2 rest

/-- Abstract whole session. -/
def runSpec (W P : Nat) (input keys : List Nat) : List Nat × List Nat :=
  sessionSpecLoop W P input 102 [] [] keys

/-- Index one past the first delimiter of `U` (the length of the first word,
delimiter included); `U.length` when `U` holds no delimiter. -/
def wordEnd : List Nat → Nat
  | [] => 0
  | b :: r => if isDelim b then 1 else 1 + wordEnd r

/-- Checks that every maximal run of consecutive non-delimiter bytes has
length at most `W`, given that `run` non-delimiters immediately precede `U`. -/
def runOK (W : Nat) : Nat → List Nat → Bool
  | run, [] => decide (run ≤ W)
  | run, b :: r => if isDelim b then runOK W 0 r else decide (run + 1 ≤ W) && runOK W (run + 1) r

/-- Input property: no word of `U` is longer than `W` content bytes (also not
a trailing word without delimiter). -/
def NoOverlong (W : Nat) (U : List Nat) : Prop := runOK W 0 U = true

/-- The buffer window invariant of the design: `0 ≤ start ≤ end + 1 ≤ C`
(`0 ≤ start` is implicit in `bstart : Nat`), together with the backing store
having exactly `C` cells. -/
structure Inv (Cp : Nat) (s : PState) : Prop where
  store_len : s.store.length = Cp
  start_le : (s.bstart : Int) ≤ s.bend + 1
  end_le : s.bend + 1 ≤ (Cp : Int)

/-!  Concrete data used in the example runs below. -/

/-- Byte codes of `"abcdefgh ij\nklmno"`, the input of the compact test of the
design document (LineWidth 10, PageSize 1, capacity 11). -/
def exInputC6 : List Nat :=
  [97, 98, 99, 100, 101, 102, 103, 104, 32, 105, 106, 10, 107, 108, 109, 110, 111]

/-- Expected rendered output for `exInputC6`: `"abcdefgh \n"`, `"ij\n"`,
`"klmno\n"` (line feed appended by the renderer), then the EOF sentinel. -/
def exOutC6 : List Nat :=
  [97, 98, 99, 100, 101, 102, 103, 104, 32, 10] ++ [105, 106, 10] ++
    [107, 108, 109, 110, 111, 10] ++ eofSentinel

/-- A window holding `"aaa "` in a store of capacity 5, used to exhibit the
non-consuming overlong scan. -/
def sOverEx : PState :=
  { store := [97, 97, 97, 32, 0], bstart := 0, bend := 3, src := []
  , srcErr := false, hasData := true }

/-- A window whose first unconsumed byte is a line feed. -/
def sDelimEx : PState :=
  { store := [10, 55], bstart := 0, bend := 0, src := [], srcErr := false
  , hasData := true }

/-- A state whose byte source fails (read returns -1) on the next refill. -/
def sFailEx : PState :=
  { store := List.replicate 11 0, bstart := 5, bend := 7, src := []
  , srcErr := true, hasData := true }

/-- A state with an exhausted byte source and an empty window. -/
def sEndedEx : PState :=
  { store := List.replicate BUFFER_SIZE 0, bstart := 0, bend := -1, src := []
  , srcErr := false, hasData := false }

/-- Byte codes of `"a "` followed by 78 `'b'` bytes and `" x"`: the first line
assembled from this input holds two words and 81 bytes. -/
def inWide : List Nat := [97, 32] ++ List.replicate 78 98 ++ [32, 120]

/-- Byte codes of `"abcd e"`, whose first word is chopped by a capacity-3 store. -/
def inChop : List Nat := [97, 98, 99, 100, 32, 101]

/-- The state of the pager right after `main`'s initial `refill_buffer(0)`. -/
def startState (Cp : Nat) (input : List Nat) : PState :=
  (refill_buffer Cp (initState Cp input) 0).1

/-!  List-level lemmas about `copyOut` and `listWrite`. -/

theorem copyOut_length (st : List Nat) (a n : Nat) : (copyOut st a n).length = n := by
  simp [copyOut]

theorem copyOut_getD (st : List Nat) (a n i : Nat) (h : i < n) :
    (copyOut st a n).getD i 0 = st.getD (a + i) 0 := by
  simp [copyOut, List.getElem?_map, List.getElem?_range h]

theorem copyOut_add (st : List Nat) (a m k : Nat) :
    copyOut st a (m + k) = copyOut st a m ++ copyOut st (a + m) k := by
  simp only [copyOut, List.range_add, List.map_append, List.map_map]
  congr 1
  apply List.map_congr_left
  intro i _
  simp [Nat.add_assoc]

theorem copyOut_take (st : List Nat) (a m n : Nat) (h : m ≤ n) :
    (copyOut st a n).take m = copyOut st a m := by
  simp only [copyOut, ← List.map_take, List.take_range, Nat.min_eq_left h]

theorem copyOut_drop (st : List Nat) (a m n : Nat) (h : m ≤ n) :
    (copyOut st a n).drop m = copyOut st (a + m) (n - m) := by
  have h2 : copyOut st a n = copyOut st a m ++ copyOut st (a + m) (n - m) := by
    rw [← copyOut_add]
    congr 1
    omega
  rw [h2, List.drop_left' (copyOut_length st a m)]

theorem getD_range_map (d : List Nat) :
    (List.range d.length).map (fun i => d.getD i 0) = d := by
  apply List.ext_getElem (by simp)
  intro i h1 h2
  simp [List.getElem?_eq_getElem h2]

theorem listWrite_length (st d : List Nat) (off : Nat) (h : off + d.length ≤ st.length) :
    (listWrite st off d).length = st.length := by
  simp [listWrite]
  omega

theorem listWrite_getD_lt (st d : List Nat) (off j : Nat) (h : j < off) (hoff : off ≤ st.length) :
    (listWrite st off d).getD j 0 = st.getD j 0 := by
  simp only [listWrite, List.getD_eq_getElem?_getD, List.append_assoc]
  rw [List.getElem?_append_left (by simp; omega), List.getElem?_take_of_lt h]

theorem listWrite_getD_mid (st d : List Nat) (off i : Nat) (hi : i < d.length)
    (hoff : off ≤ st.length) :
    (listWrite st off d).getD (off + i) 0 = d.getD i 0 := by
  simp only [listWrite, List.getD_eq_getElem?_getD, List.append_assoc]
  rw [List.getElem?_append_right (by simp only [List.length_take]; omega)]
  simp [List.length_take, Nat.min_eq_left hoff, List.getElem?_append_left hi]

theorem copyOut_listWrite_self (st d : List Nat) (off : Nat) (h : off + d.length ≤ st.length) :
    copyOut (listWrite st off d) off d.length = d := by
  have hoff : off ≤ st.length := by omega
  calc copyOut (listWrite st off d) off d.length
      = (List.range d.length).map (fun i => d.getD i 0) := by
        apply List.map_congr_left
        intro i hi
        rw [List.mem_range] at hi
        exact listWrite_getD_mid st d off i hi hoff
    _ = d := getD_range_map d

theorem copyOut_listWrite_of_le (st d : List Nat) (off a n : Nat)
    (h : a + n ≤ off) (hoff : off ≤ st.length) :
    copyOut (listWrite st off d) a n = copyOut st a n := by
  apply List.map_congr_left
  intro i hi
  rw [List.mem_range] at hi
  exact listWrite_getD_lt st d off (a + i) (by omega) hoff

theorem drop_take_eq_copyOut (st : List Nat) (a n : Nat) (h : a + n ≤ st.length) :
    (st.drop a).take n = copyOut st a n := by
  apply List.ext_getElem (by simp [copyOut_length]; omega)
  intro i h1 h2
  have hi : i < n := by simpa [copyOut_length] using h2
  have hlt : a + i < st.length := by omega
  simp [copyOut, List.getElem?_eq_getElem hlt, List.getElem?_range hi, hi]

/-!  Basic facts about the window under the invariant. -/

theorem wlen_int (s : PState) (h : (s.bstart : Int) ≤ s.bend + 1) :
    (wlen s : Int) = s.bend + 1 - s.bstart := by
  simp only [wlen]
  omega

theorem window_eq_copyOut (Cp : Nat) (s : PState) (hInv : Inv Cp s) :
    window s = copyOut s.store s.bstart (wlen s) := by
  apply drop_take_eq_copyOut
  have h1 := hInv.store_len
  have h2 := hInv.start_le
  have h3 := hInv.end_le
  have h4 := wlen_int s h2
  omega

theorem window_length (Cp : Nat) (s : PState) (hInv : Inv Cp s) :
    (window s).length = wlen s := by
  rw [window_eq_copyOut Cp s hInv, copyOut_length]

/-!  Soundness facts about the abstract scan. -/

theorem scanWord_ne_ioerr (U : List Nat) :
    ∀ fuel count U2, scanWord U count fuel ≠ (.ioerr, U2) := by
  intro fuel
  induction fuel with
  | zero => intro count U2 h; simp [scanWord] at h
  | succ fuel ih =>
    intro count U2 h
    rw [scanWord] at h
    split at h
    · split at h
      · simp at h
      · exact ih _ _ h
    · split at h
      · simp at h
      · simp at h

theorem scanWord_overlong (U : List Nat) :
    ∀ fuel count U2, scanWord U count fuel = (.overlong, U2) → U2 = U := by
  intro fuel
  induction fuel with
  | zero =>
    intro count U2 h
    rw [scanWord] at h
    exact (Prod.mk.injEq _ _ _ _ ▸ h).2.symm
  | succ fuel ih =>
    intro count U2 h
    rw [scanWord] at h
    split at h
    · split at h
      · simp at h
      · exact ih _ _ h
    · split at h
      · simp at h
      · simp at h

theorem scanWord_eof (U : List Nat) :
    ∀ fuel count U2, count ≤ U.length → scanWord U count fuel = (.eof, U2) →
      U = [] ∧ U2 = U := by
  intro fuel
  induction fuel with
  | zero => intro count U2 _ h; simp [scanWord] at h
  | succ fuel ih =>
    intro count U2 hle h
    rw [scanWord] at h
    split at h
    · split at h
      · simp at h
      · exact ih _ _ (by omega) h
    · split at h
      · rename_i h1 h2
        have : U.length = 0 := by omega
        simp at h
        exact ⟨List.length_eq_zero.mp this, h.symm⟩
      · simp at h

theorem scanWord_found (U : List Nat) :
    ∀ fuel count w U2, count ≤ U.length → scanWord U count fuel = (.found w, U2) →
      w = U.take w.length ∧ U2 = U.drop w.length ∧ count ≤ w.length ∧ 1 ≤ w.length ∧
      w.length ≤ count + fuel ∧
      (∀ i, count ≤ i → i + 1 < w.length → isDelim (U.getD i 0) = false) ∧
      (isDelim (U.getD (w.length - 1) 0) = true ∨
        (w.length = U.length ∧ ∀ i, count ≤ i → i < U.length → isDelim (U.getD i 0) = false)) := by
  intro fuel
  induction fuel with
  | zero => intro count w U2 _ h; simp [scanWord] at h
  | succ fuel ih =>
    intro count w U2 hle h
    rw [scanWord] at h
    split at h
    · rename_i h1
      split at h
      · rename_i h2
        simp only [Prod.mk.injEq, WordRes.found.injEq] at h
        obtain ⟨hw, hU2⟩ := h
        have hlen : w.length = count + 1 := by
          rw [← hw]
          simp [List.length_take]
          omega
        refine ⟨by rw [hlen, ← hw], by rw [hlen, ← hU2], by omega, by omega, by omega, ?_, ?_⟩
        · intro i hi1 hi2
          omega
        · left
          rw [hlen]
          simpa using h2
      · rename_i h2
        obtain ⟨c1, c2, c3, c4, c5, c6, c7⟩ := ih (count + 1) w U2 (by omega) h
        refine ⟨c1, c2, by omega, c4, by omega, ?_, ?_⟩
        · intro i hi1 hi2
          rcases Nat.eq_or_lt_of_le hi1 with hh | hh
          · rw [← hh]
            simpa using h2
          · exact c6 i hh hi2
        · rcases c7 with c7 | ⟨c7a, c7b⟩
          · exact Or.inl c7
          · refine Or.inr ⟨c7a, ?_⟩
            intro i hi1 hi2
            rcases Nat.eq_or_lt_of_le hi1 with hh | hh
            · rw [← hh]
              simpa using h2
            · exact c7b i hh hi2
    · rename_i h1
      split at h
      · simp at h
      · rename_i h2
        have hcl : count = U.length := by omega
        simp only [Prod.mk.injEq, WordRes.found.injEq] at h
        obtain ⟨hw, hU2⟩ := h
        have hlen : w.length = count := by
          rw [← hw]
          simp [List.length_take]
          omega
        refine ⟨by rw [hlen, ← hw], by rw [hlen, ← hU2], by omega, by omega, by omega, ?_, ?_⟩
        · intro i hi1 hi2
          omega
        · refine Or.inr ⟨by omega, ?_⟩
          intro i hi1 hi2
          omega

/-!  Completeness facts: with sufficient fuel the scan returns the first word. -/

theorem scanWord_shift (b : Nat) (U : List Nat) :
    ∀ fuel count,
      scanWord (b :: U) (count + 1) fuel =
        match scanWord U count fuel with
        | (.found w, U2) => (.found (b :: w), U2)
        | (.eof, U2) => (.found [b], U2)
        | (.overlong, U2) => (.overlong, b :: U2)
        | (.ioerr, U2) => (.ioerr, b :: U2) := by
  intro fuel
  induction fuel with
  | zero => intro count; rfl
  | succ fuel ih =>
    intro count
    by_cases h1 : count < U.length
    · by_cases h2 : isDelim (U.getD count 0) = true
      · rw [scanWord, scanWord]
        rw [if_pos (by simp; omega), if_pos h1]
        simp only [List.getD_cons_succ]
        rw [if_pos h2, if_pos h2]
        simp [List.take_succ_cons, List.drop_succ_cons]
      · rw [scanWord, scanWord]
        rw [if_pos (by simp; omega), if_pos h1]
        simp only [List.getD_cons_succ]
        rw [if_neg h2, if_neg h2]
        exact ih (count + 1)
    · rw [scanWord, scanWord]
      rw [if_neg (by simp; omega), if_neg h1]
      by_cases h0 : count = 0
      · subst h0
        simp
      · rw [if_neg (by omega), if_neg h0]
        simp [List.take_succ_cons, List.drop_succ_cons]

theorem wordEnd_pos (U : List Nat) (h : U ≠ []) : 1 ≤ wordEnd U := by
  cases U with
  | nil => simp at h
  | cons b r =>
    rw [wordEnd]
    split <;> omega

theorem wordEnd_le_length (U : List Nat) : wordEnd U ≤ U.length := by
  induction U with
  | nil => simp [wordEnd]
  | cons b r ih =>
    rw [wordEnd]
    split
    · simp
    · simp only [List.length_cons]
      omega

theorem scanWord_complete_delim (U : List Nat) :
    ∀ fuel, U ≠ [] → isDelim (U.getD (wordEnd U - 1) 0) = true → wordEnd U ≤ fuel →
      scanWord U 0 fuel = (.found (U.take (wordEnd U)), U.drop (wordEnd U)) := by
  induction U with
  | nil => intro fuel h; simp at h
  | cons b r ih =>
    intro fuel hne hdel hfuel
    by_cases hb : isDelim b = true
    · have hwe : wordEnd (b :: r) = 1 := by rw [wordEnd, if_pos hb]
      rw [hwe] at hfuel ⊢
      obtain ⟨fuel', rfl⟩ : ∃ f, fuel = f + 1 := ⟨fuel - 1, by omega⟩
      rw [scanWord]
      simp [hb]
    · have hwe : wordEnd (b :: r) = 1 + wordEnd r := by rw [wordEnd, if_neg hb]
      have hr : r ≠ [] := by
        intro hr
        subst hr
        rw [hwe] at hdel
        simp [wordEnd] at hdel
        exact hb hdel
      have hwr := wordEnd_pos r hr
      have hdel2 : isDelim (r.getD (wordEnd r - 1) 0) = true := by
        rw [hwe] at hdel
        have he : 1 + wordEnd r - 1 = (wordEnd r - 1) + 1 := by omega
        rw [he, List.getD_cons_succ] at hdel
        exact hdel
      rw [hwe] at hfuel ⊢
      obtain ⟨fuel', rfl⟩ : ∃ f, fuel = f + 1 := ⟨fuel - 1, by omega⟩
      rw [scanWord]
      rw [if_pos (by simp)]
      rw [if_neg (by simpa using hb)]
      rw [scanWord_shift b r fuel' 0]
      rw [ih fuel' hr hdel2 (by omega)]
      have hc : 1 + wordEnd r = wordEnd r + 1 := by omega
      rw [hc, List.take_succ_cons, List.drop_succ_cons]

theorem scanWord_complete_nodelim (U : List Nat) :
    ∀ fuel, U ≠ [] → (∀ x ∈ U, isDelim x = false) → U.length < fuel →
      scanWord U 0 fuel = (.found U, []) := by
  induction U with
  | nil => intro fuel h; simp at h
  | cons b r ih =>
    intro fuel _ hall hfuel
    obtain ⟨fuel', rfl⟩ : ∃ f, fuel = f + 1 := ⟨fuel - 1, by omega⟩
    rw [scanWord]
    rw [if_pos (by simp)]
    rw [if_neg (by simp [hall b (by simp)])]
    rw [scanWord_shift b r fuel' 0]
    by_cases hr : r = []
    · subst hr
      obtain ⟨f2, rfl⟩ : ∃ f, fuel' = f + 1 := ⟨fuel' - 1, by simp at hfuel; omega⟩
      rw [scanWord]
      simp
    · rw [ih fuel' hr (fun x hx => hall x (by simp [hx])) (by simp at hfuel; omega)]

theorem wordEnd_eq_of_delim (U : List Nat) :
    ∀ e, 1 ≤ e → (∀ i, i + 1 < e → isDelim (U.getD i 0) = false) →
      isDelim (U.getD (e - 1) 0) = true → wordEnd U = e := by
  induction U with
  | nil => intro e h1 h2 h3; simp [isDelim] at h3
  | cons b r ih =>
    intro e h1 h2 h3
    by_cases he : e = 1
    · subst he
      simp only [Nat.sub_self, List.getD_cons_zero] at h3
      rw [wordEnd, if_pos h3]
    · have hb : isDelim b = false := by simpa using h2 0 (by omega)
      rw [wordEnd, if_neg (by simp [hb])]
      have hr : wordEnd r = e - 1 := by
        apply ih (e - 1) (by omega)
        · intro i hi
          have := h2 (i + 1) (by omega)
          simpa using this
        · have h4 : (e - 1) - 1 = e - 2 := by omega
          have h5 : e - 1 = (e - 2) + 1 := by omega
          rw [h4]
          rw [h5, List.getD_cons_succ] at h3
          exact h3
      omega

theorem wordEnd_eq_of_nodelim (U : List Nat) :
    (∀ i, i < U.length → isDelim (U.getD i 0) = false) → wordEnd U = U.length := by
  induction U with
  | nil => intro h; simp [wordEnd]
  | cons b r ih =>
    intro h
    have hb : isDelim b = false := by simpa using h 0 (by simp)
    rw [wordEnd, if_neg (by simp [hb])]
    have hr := ih (fun i hi => by simpa using h (i + 1) (by simp; omega))
    simp only [List.length_cons]
    omega

theorem wordEnd_delim_or_all (U : List Nat) :
    (isDelim (U.getD (wordEnd U - 1) 0) = true ∧ U ≠ []) ∨
      (∀ x ∈ U, isDelim x = false) := by
  induction U with
  | nil => right; simp
  | cons b r ih =>
    by_cases hb : isDelim b = true
    · left
      refine ⟨?_, by simp⟩
      rw [wordEnd, if_pos hb]
      simpa using hb
    · rcases ih with ⟨h1, h2⟩ | h1
      · left
        refine ⟨?_, by simp⟩
        rw [wordEnd, if_neg hb]
        have hw := wordEnd_pos r h2
        have he : 1 + wordEnd r - 1 = (wordEnd r - 1) + 1 := by omega
        rw [he, List.getD_cons_succ]
        exact h1
      · right
        intro x hx
        rcases List.mem_cons.mp hx with rfl | hx
        · simpa using hb
        · exact h1 x hx

/-!  Facts about the no-overlong-word input property. -/

theorem runOK_wordEnd (W : Nat) (U : List Nat) :
    ∀ run, run ≤ W → runOK W run U = true → wordEnd U + run ≤ W + 1 := by
  induction U with
  | nil =>
    intro run h1 h2
    simp [wordEnd]
    omega
  | cons b r ih =>
    intro run h1 h2
    rw [runOK] at h2
    by_cases hb : isDelim b = true
    · rw [if_pos hb] at h2
      rw [wordEnd, if_pos hb]
      omega
    · rw [if_neg hb] at h2
      simp at h2
      rw [wordEnd, if_neg hb]
      have := ih (run + 1) h2.1 h2.2
      omega

theorem noov_wordEnd (W : Nat) (U : List Nat) (h : NoOverlong W U) : wordEnd U ≤ W + 1 := by
  have := runOK_wordEnd W U 0 (by omega) h
  omega

theorem runOK_nodelim_len (W : Nat) (U : List Nat) :
    ∀ run, (∀ x ∈ U, isDelim x = false) → runOK W run U = true → run + U.length ≤ W := by
  induction U with
  | nil =>
    intro run _ h
    rw [runOK] at h
    simp at h
    simpa using h
  | cons b r ih =>
    intro run hall h
    rw [runOK] at h
    rw [if_neg (by simp [hall b (by simp)])] at h
    simp at h
    have := ih (run + 1) (fun x hx => hall x (by simp [hx])) h.2
    simp only [List.length_cons]
    omega

theorem runOK_drop_wordEnd (W : Nat) (U : List Nat) :
    ∀ run, runOK W run U = true → runOK W 0 (U.drop (wordEnd U)) = true := by
  induction U with
  | nil =>
    intro run _
    simp [wordEnd, runOK]
  | cons b r ih =>
    intro run h
    rw [runOK] at h
    by_cases hb : isDelim b = true
    · rw [if_pos hb] at h
      rw [wordEnd, if_pos hb]
      simpa using h
    · rw [if_neg hb] at h
      simp at h
      rw [wordEnd, if_neg hb]
      have hc : 1 + wordEnd r = wordEnd r + 1 := by omega
      rw [hc, List.drop_succ_cons]
      exact ih (run + 1) h.2

theorem noov_drop (W : Nat) (U : List Nat) (h : NoOverlong W U) :
    NoOverlong W (U.drop (wordEnd U)) :=
  runOK_drop_wordEnd W U 0 h

theorem noov_scan_found (W : Nat) (U : List Nat) (hne : U ≠ []) (hno : NoOverlong W U) :
    wordSpec U W = (.found (U.take (wordEnd U)), U.drop (wordEnd U)) := by
  rcases wordEnd_delim_or_all U with ⟨hdel, _⟩ | hall
  · have hwe := noov_wordEnd W U hno
    rw [wordSpec]
    exact scanWord_complete_delim U (W + 1) hne hdel (by omega)
  · have hlen : U.length ≤ W := by
      have := runOK_nodelim_len W U 0 hall hno
      omega
    have hwe : wordEnd U = U.length := by
      apply wordEnd_eq_of_nodelim
      intro i hi
      apply hall
      have : U.getD i 0 = U[i] := by simp [List.getElem?_eq_getElem hi]
      rw [this]
      exact List.getElem_mem hi
    rw [wordSpec]
    rw [scanWord_complete_nodelim U (W + 1) hne hall (by omega)]
    rw [hwe]
    simp

theorem wordSpec_found_aligned (U : List Nat) (max_size : Nat) (w U2 : List Nat)
    (h : wordSpec U max_size = (.found w, U2)) :
    w.length = wordEnd U ∧ w = U.take (wordEnd U) ∧ U2 = U.drop (wordEnd U) ∧
      1 ≤ w.length ∧ w.length ≤ max_size + 1 := by
  obtain ⟨c1, c2, _, c4, c5, c6, c7⟩ := scanWord_found U (max_size + 1) 0 w U2 (by omega) h
  have hwe : wordEnd U = w.length := by
    rcases c7 with c7 | ⟨c7a, c7b⟩
    · exact wordEnd_eq_of_delim U w.length c4 (fun i hi => c6 i (by omega) hi) c7
    · rw [wordEnd_eq_of_nodelim U (fun i hi => c7b i (by omega) hi), c7a]
  refine ⟨hwe.symm, by rw [← hwe] at c1; exact c1, by rw [← hwe] at c2; exact c2, c4, by omega⟩

/-!  One-step evaluation lemmas for the concrete scan loop. -/

theorem fetchWordAux_step_eof (Cp fuel : Nat) (s : PState)
    (hg : s.bend < ((s.bstart + 0 : Nat) : Int))
    (hsrc : s.src = []) (hErr : s.srcErr = false) :
    fetchWordAux Cp s s.bstart 0 (fuel + 1) =
      (.eof, { s with bstart := 0, bend := -1, hasData := false }) := by
  rw [fetchWordAux]
  rw [if_pos hg]
  simp [refill_buffer, hsrc, hErr]

theorem fetchWordAux_step_final (Cp fuel : Nat) (s : PState) (count : Nat)
    (hg : s.bend < ((s.bstart + count : Nat) : Int))
    (hsrc : s.src = []) (hErr : s.srcErr = false) (hc : 0 < count) :
    fetchWordAux Cp s s.bstart count (fuel + 1) =
      (.found (copyOut (listWrite s.store 0 (copyOut s.store s.bstart count)) 0 count),
        { s with store := listWrite s.store 0 (copyOut s.store s.bstart count)
               , bstart := count, bend := (count : Int) - 1, hasData := false }) := by
  rw [fetchWordAux]
  rw [if_pos hg]
  simp [refill_buffer, hsrc, hErr, hc, finishWord]

theorem fetchWordAux_step_refill (Cp fuel : Nat) (s s2 : PState) (count n : Nat)
    (hg : s.bend < ((s.bstart + count : Nat) : Int))
    (hsrc : s.src ≠ []) (hreq : count < Cp)
    (hn : n = min (Cp - count) s.src.length)
    (hs2 : s2 = { store := listWrite
                    (if 0 < count then listWrite s.store 0 (copyOut s.store s.bstart count)
                     else s.store) count (s.src.take n)
                , bstart := 0, bend := (count : Int) - 1 + (n : Int), src := s.src.drop n
                , srcErr := s.srcErr, hasData := true }) :
    fetchWordAux Cp s s.bstart count (fuel + 1) =
      if isDelim (s2.store.getD (0 + count) 0) then finishWord s2 0 (count + 1)
      else fetchWordAux Cp s2 0 (count + 1) fuel := by
  subst hs2
  subst hn
  have hn : 0 < min (Cp - count) s.src.length := by
    have h1 : 0 < s.src.length := List.length_pos.mpr hsrc
    omega
  rw [fetchWordAux]
  rw [if_pos hg]
  simp only [refill_buffer, if_pos hn]
  rw [if_neg (by omega), if_neg (by omega)]

theorem fetchWordAux_step_delim (Cp fuel : Nat) (s : PState) (count : Nat)
    (hg : ¬s.bend < ((s.bstart + count : Nat) : Int))
    (hb : isDelim (s.store.getD (s.bstart + count) 0) = true) :
    fetchWordAux Cp s s.bstart count (fuel + 1) =
      (.found (copyOut s.store s.bstart (count + 1)),
        { s with bstart := s.bstart + (count + 1) }) := by
  rw [fetchWordAux]
  rw [if_neg hg]
  rw [if_pos hb]
  rfl

theorem fetchWordAux_step_cont (Cp fuel : Nat) (s : PState) (count : Nat)
    (hg : ¬s.bend < ((s.bstart + count : Nat) : Int))
    (hb : isDelim (s.store.getD (s.bstart + count) 0) = false) :
    fetchWordAux Cp s s.bstart count (fuel + 1) =
      fetchWordAux Cp s s.bstart (count + 1) fuel := by
  rw [fetchWordAux]
  rw [if_neg hg]
  rw [if_neg (by simp only [Bool.not_eq_true]; simpa using hb)]

theorem getD_append_left (l l2 : List Nat) (i : Nat) (h : i < l.length) :
    (l ++ l2).getD i 0 = l.getD i 0 := by
  simp [List.getElem?_append_left h]

theorem unconsumed_eq_nil (s : PState) (h : s.bend + 1 ≤ (s.bstart : Int)) (hsrc : s.src = []) :
    unconsumed s = [] := by
  have hw : wlen s = 0 := by
    simp only [wlen]
    omega
  simp [unconsumed, window, hw, hsrc]

theorem unconsumed_advance (Cp : Nat) (s : PState) (k : Nat) (hInv : Inv Cp s)
    (hk : k ≤ wlen s) :
    unconsumed { s with bstart := s.bstart + k } = (unconsumed s).drop k ∧
    Inv Cp { s with bstart := s.bstart + k } := by
  have hsl := hInv.store_len
  have hst := hInv.start_le
  have hen := hInv.end_le
  have hwi := wlen_int s hst
  constructor
  · show window { s with bstart := s.bstart + k } ++ s.src = (window s ++ s.src).drop k
    rw [List.drop_append_of_le_length (by rw [window_length Cp s hInv]; omega)]
    congr 1
    have hwk : wlen { s with bstart := s.bstart + k } = wlen s - k := by
      simp only [wlen]
      omega
    show (s.store.drop (s.bstart + k)).take (wlen { s with bstart := s.bstart + k })
        = (window s).drop k
    rw [hwk]
    rw [drop_take_eq_copyOut _ _ _ (by omega)]
    rw [window_eq_copyOut Cp s hInv, copyOut_drop _ _ _ _ hk]
  · refine ⟨hsl, ?_, hen⟩
    show ((s.bstart + k : Nat) : Int) ≤ s.bend + 1
    omega

/-- Core simulation: the buffered scan loop of `fetch_next_word` behaves like
the abstract scan over the unconsumed byte sequence, as long as the scan
budget fits the capacity, and it preserves the window invariant. -/
theorem fetchWordAux_sim (Cp : Nat) :
    ∀ fuel (s : PState) (count : Nat), Inv Cp s → s.srcErr = false →
      count ≤ wlen s → count + fuel ≤ Cp →
      (fetchWordAux Cp s s.bstart count fuel).1 = (scanWord (unconsumed s) count fuel).1 ∧
      unconsumed (fetchWordAux Cp s s.bstart count fuel).2 = (scanWord (unconsumed s) count fuel).2 ∧
      Inv Cp (fetchWordAux Cp s s.bstart count fuel).2 ∧
      (fetchWordAux Cp s s.bstart count fuel).2.srcErr = false ∧
      ((scanWord (unconsumed s) count fuel).1 = .overlong →
        (fetchWordAux Cp s s.bstart count fuel).2.bstart ≤ s.bstart) := by
  intro fuel
  induction fuel with
  | zero =>
    intro s count hInv hErr hcount hfuel
    rw [fetchWordAux, scanWord]
    exact ⟨rfl, rfl, hInv, hErr, fun _ => le_refl _⟩
  | succ fuel ih =>
    intro s count hInv hErr hcount hfuel
    have hsl := hInv.store_len
    have hst := hInv.start_le
    have hen := hInv.end_le
    have hwi := wlen_int s hst
    have hwin := window_eq_copyOut Cp s hInv
    have hwlen : (window s).length = wlen s := window_length Cp s hInv
    have hUdef : unconsumed s = window s ++ s.src := rfl
    have hUlen2 : (unconsumed s).length = wlen s + s.src.length := by
      rw [hUdef, List.length_append, hwlen]
    by_cases hg : s.bend < ((s.bstart + count : Nat) : Int)
    · have hcn : count = wlen s := by omega
      by_cases hsrc : s.src = []
      · have hULen : (unconsumed s).length = count := by
          rw [hUlen2, hsrc]
          simp [hcn]
        by_cases hc : 0 < count
        · -- refill returns 0, count > 0: the final word of the stream
          rw [fetchWordAux_step_final Cp fuel s count hg hsrc hErr hc]
          have hab : scanWord (unconsumed s) count (fuel + 1)
              = (.found ((unconsumed s).take count), (unconsumed s).drop count) := by
            rw [scanWord]
            rw [if_neg (by omega), if_neg (by omega)]
          rw [hab]
          have hword : copyOut (listWrite s.store 0 (copyOut s.store s.bstart count)) 0 count
              = (unconsumed s).take count := by
            have h1 := copyOut_listWrite_self s.store (copyOut s.store s.bstart count) 0
              (by rw [copyOut_length]; omega)
            rw [copyOut_length] at h1
            rw [h1]
            have h2 : (unconsumed s).take count = window s := by
              rw [hUdef, hsrc, List.append_nil]
              have h3 : count = (window s).length := by omega
              rw [h3, List.take_length]
            rw [h2, hwin, hcn]
          have hlw : (listWrite s.store 0 (copyOut s.store s.bstart count)).length = Cp := by
            rw [listWrite_length _ _ _ (by rw [copyOut_length]; omega)]
            exact hsl
          refine ⟨by simp [hword], ?_, ?_, hErr, ?_⟩
          · have hu3 : unconsumed
                { s with store := listWrite s.store 0 (copyOut s.store s.bstart count)
                       , bstart := count, bend := (count : Int) - 1, hasData := false } = [] := by
              apply unconsumed_eq_nil
              · show (count : Int) - 1 + 1 ≤ ((count : Nat) : Int)
                omega
              · exact hsrc
            rw [hu3]
            have h4 : (unconsumed s).drop count = [] :=
              List.drop_of_length_le (by omega)
            rw [h4]
          · constructor
            · simpa using hlw
            · show ((count : Nat) : Int) ≤ (count : Int) - 1 + 1
              omega
            · show (count : Int) - 1 + 1 ≤ (Cp : Int)
              omega
          · intro habs
            simp at habs
        · -- refill returns 0, count = 0: end of stream
          have hc0 : count = 0 := by omega
          subst hc0
          rw [fetchWordAux_step_eof Cp fuel s hg hsrc hErr]
          have hUnil : unconsumed s = [] := by
            have := hULen
            exact List.length_eq_zero.mp (by omega)
          have hab : scanWord (unconsumed s) 0 (fuel + 1) = (.eof, unconsumed s) := by
            rw [scanWord]
            rw [if_neg (by omega), if_pos rfl]
          rw [hab]
          refine ⟨rfl, ?_, ?_, hErr, ?_⟩
          · rw [hUnil]
            apply unconsumed_eq_nil
            · show (-1 : Int) + 1 ≤ ((0 : Nat) : Int)
              omega
            · exact hsrc
          · constructor
            · simpa using hsl
            · show ((0 : Nat) : Int) ≤ (-1 : Int) + 1
              omega
            · show (-1 : Int) + 1 ≤ (Cp : Int)
              omega
          · intro habs
            simp at habs
      · -- refill succeeds: the window is extended with fresh source bytes
        have hreq : count < Cp := by omega
        have hsplen : 0 < s.src.length := List.length_pos.mpr hsrc
        set n := min (Cp - count) s.src.length with hn_def
        have hn1 : 1 ≤ n := by omega
        have hnle : n ≤ s.src.length := by omega
        have hst1len : (if 0 < count then listWrite s.store 0 (copyOut s.store s.bstart count)
            else s.store).length = Cp := by
          split
          · rw [listWrite_length _ _ _ (by rw [copyOut_length]; omega)]
            exact hsl
          · exact hsl
        set store1 := if 0 < count then listWrite s.store 0 (copyOut s.store s.bstart count)
          else s.store with hstore1_def
        have hst1copy : copyOut store1 0 count = copyOut s.store s.bstart count := by
          rw [hstore1_def]
          by_cases hc : 0 < count
          · rw [if_pos hc]
            have h1 := copyOut_listWrite_self s.store (copyOut s.store s.bstart count) 0
              (by rw [copyOut_length]; omega)
            rw [copyOut_length] at h1
            exact h1
          · have hc0 : count = 0 := by omega
            rw [if_neg hc, hc0]
            simp [copyOut]
        have hd : (s.src.take n).length = n := by
          rw [List.length_take]
          omega
        set s2 : PState := { store := listWrite store1 count (s.src.take n), bstart := 0
                           , bend := (count : Int) - 1 + (n : Int), src := s.src.drop n
                           , srcErr := s.srcErr, hasData := true } with hs2_def
        have hs2len : s2.store.length = Cp := by
          rw [hs2_def]
          show (listWrite store1 count (s.src.take n)).length = Cp
          rw [listWrite_length _ _ _ (by rw [hd, hst1len]; omega)]
          exact hst1len
        have hInv2 : Inv Cp s2 := by
          refine ⟨hs2len, ?_, ?_⟩
          · rw [hs2_def]
            show ((0 : Nat) : Int) ≤ (count : Int) - 1 + (n : Int) + 1
            omega
          · rw [hs2_def]
            show (count : Int) - 1 + (n : Int) + 1 ≤ (Cp : Int)
            omega
        have hErr2 : s2.srcErr = false := by
          rw [hs2_def]
          exact hErr
        have hw2 : wlen s2 = count + n := by
          rw [hs2_def]
          simp only [wlen]
          omega
        have hwin2 : window s2 = copyOut s.store s.bstart count ++ s.src.take n := by
          rw [window_eq_copyOut Cp s2 hInv2, hw2]
          have hb0 : s2.bstart = 0 := by rw [hs2_def]
          have hb1 : s2.store = listWrite store1 count (s.src.take n) := by rw [hs2_def]
          rw [hb0, copyOut_add, hb1]
          congr 1
          · rw [copyOut_listWrite_of_le _ _ _ _ _ (by omega) (by rw [hst1len]; omega)]
            exact hst1copy
          · have h5 := copyOut_listWrite_self store1 (s.src.take n) count
              (by rw [hd, hst1len]; omega)
            rw [hd] at h5
            rw [show (0 + count) = count from by omega]
            exact h5
        have hU2 : unconsumed s2 = unconsumed s := by
          have hbs : s2.src = s.src.drop n := by rw [hs2_def]
          show window s2 ++ s2.src = unconsumed s
          rw [hwin2, hbs, List.append_assoc, List.take_append_drop]
          rw [hUdef, hwin, hcn]
        have hUclen : count < (unconsumed s).length := by
          rw [hUlen2]
          omega
        have hbyte : s2.store.getD (0 + count) 0 = (unconsumed s).getD count 0 := by
          have h1 : (unconsumed s).getD count 0 = (window s2).getD count 0 := by
            rw [← hU2]
            show (window s2 ++ s2.src).getD count 0 = _
            rw [getD_append_left _ _ _ (by rw [window_length Cp s2 hInv2, hw2]; omega)]
          rw [h1, window_eq_copyOut Cp s2 hInv2, hw2]
          rw [copyOut_getD _ _ _ _ (by omega)]
        rw [fetchWordAux_step_refill Cp fuel s s2 count n hg hsrc hreq hn_def hs2_def]
        by_cases hb : isDelim ((unconsumed s).getD count 0) = true
        · rw [if_pos (by rw [hbyte]; exact hb)]
          have hab : scanWord (unconsumed s) count (fuel + 1)
              = (.found ((unconsumed s).take (count + 1)), (unconsumed s).drop (count + 1)) := by
            rw [scanWord, if_pos hUclen, if_pos hb]
          rw [hab]
          have hword : copyOut s2.store 0 (count + 1) = (unconsumed s).take (count + 1) := by
            have h1 : copyOut s2.store 0 (count + 1)
                = (copyOut s2.store 0 (count + n)).take (count + 1) :=
              (copyOut_take _ _ _ _ (by omega)).symm
            have hb0 : s2.bstart = 0 := by rw [hs2_def]
            rw [h1, ← hw2]
            rw [show (0 : Nat) = s2.bstart from hb0.symm]
            rw [← window_eq_copyOut Cp s2 hInv2]
            rw [← hU2]
            show _ = (window s2 ++ s2.src).take (count + 1)
            rw [List.take_append_of_le_length (by rw [window_length Cp s2 hInv2, hw2]; omega)]
          have hadv := unconsumed_advance Cp s2 (count + 1) hInv2 (by rw [hw2]; omega)
          rw [hU2] at hadv
          refine ⟨?_, ?_, ?_, ?_, ?_⟩
          · simp only [finishWord]
            rw [hword]
          · simp only [finishWord]
            exact hadv.1
          · exact hadv.2
          · exact hErr2
          · intro habs
            simp at habs
        · rw [if_neg (by rw [hbyte]; exact hb)]
          have hab : scanWord (unconsumed s) count (fuel + 1)
              = scanWord (unconsumed s) (count + 1) fuel := by
            rw [scanWord, if_pos hUclen, if_neg hb]
          rw [hab]
          have hb0 : s2.bstart = 0 := by rw [hs2_def]
          have hrec := ih s2 (count + 1) hInv2 hErr2 (by rw [hw2]; omega) (by omega)
          rw [hU2, hb0] at hrec
          refine ⟨hrec.1, hrec.2.1, hrec.2.2.1, hrec.2.2.2.1, ?_⟩
          intro habs
          have hle := hrec.2.2.2.2 habs
          omega
    · -- a byte is available in the window at the scan position
      have hclt : count < wlen s := by omega
      have hUclen : count < (unconsumed s).length := by
        rw [hUlen2]
        omega
      have hbyte : s.store.getD (s.bstart + count) 0 = (unconsumed s).getD count 0 := by
        rw [hUdef, getD_append_left _ _ _ (by rw [hwlen]; omega)]
        rw [hwin, copyOut_getD _ _ _ _ (by omega)]
      by_cases hb : isDelim ((unconsumed s).getD count 0) = true
      · rw [fetchWordAux_step_delim Cp fuel s count hg (by rw [hbyte]; exact hb)]
        have hab : scanWord (unconsumed s) count (fuel + 1)
            = (.found ((unconsumed s).take (count + 1)), (unconsumed s).drop (count + 1)) := by
          rw [scanWord, if_pos hUclen, if_pos hb]
        rw [hab]
        have hword : copyOut s.store s.bstart (count + 1) = (unconsumed s).take (count + 1) := by
          have h1 : copyOut s.store s.bstart (count + 1)
              = (copyOut s.store s.bstart (wlen s)).take (count + 1) :=
            (copyOut_take _ _ _ _ (by omega)).symm
          rw [h1, ← hwin, hUdef]
          rw [List.take_append_of_le_length (by rw [hwlen]; omega)]
        have hadv := unconsumed_advance Cp s (count + 1) hInv (by omega)
        refine ⟨by simp [hword], hadv.1, hadv.2, hErr, ?_⟩
        intro habs
        simp at habs
      · rw [fetchWordAux_step_cont Cp fuel s count hg (by rw [hbyte]; simpa using hb)]
        have hab : scanWord (unconsumed s) count (fuel + 1)
            = scanWord (unconsumed s) (count + 1) fuel := by
          rw [scanWord, if_pos hUclen, if_neg hb]
        rw [hab]
        exact ih s (count + 1) hInv hErr (by omega) (by omega)

theorem fetch_word_sim (Cp : Nat) (s : PState) (max_size : Nat) (hInv : Inv Cp s)
    (hErr : s.srcErr = false) (hC : max_size + 1 ≤ Cp) :
    (fetch_next_word Cp s max_size).1 = (wordSpec (unconsumed s) max_size).1 ∧
    unconsumed (fetch_next_word Cp s max_size).2 = (wordSpec (unconsumed s) max_size).2 ∧
    Inv Cp (fetch_next_word Cp s max_size).2 ∧
    (fetch_next_word Cp s max_size).2.srcErr = false ∧
    ((wordSpec (unconsumed s) max_size).1 = .overlong →
      (fetch_next_word Cp s max_size).2.bstart ≤ s.bstart) :=
  fetchWordAux_sim Cp (max_size + 1) s 0 hInv hErr (by omega) (by omega)

theorem wordSpec_eof (U : List Nat) (max_size : Nat) (U2 : List Nat)
    (h : wordSpec U max_size = (.eof, U2)) : U = [] ∧ U2 = U :=
  scanWord_eof U (max_size + 1) 0 U2 (by omega) h

theorem wordSpec_overlong (U : List Nat) (max_size : Nat) (U2 : List Nat)
    (h : wordSpec U max_size = (.overlong, U2)) : U2 = U :=
  scanWord_overlong U (max_size + 1) 0 U2 h

/-- The buffered line assembler agrees with the abstract one. -/
theorem fetchLineAux_sim (Cp W : Nat) (hC : W + 1 ≤ Cp) :
    ∀ fuel (s : PState) (line : List Nat) (count : Nat), Inv Cp s → s.srcErr = false →
      (fetchLineAux Cp W s line count fuel).1 = (lineSpecAux W (unconsumed s) line count fuel).1 ∧
      (fetchLineAux Cp W s line count fuel).2.1
        = (lineSpecAux W (unconsumed s) line count fuel).2.1 ∧
      unconsumed (fetchLineAux Cp W s line count fuel).2.2
        = (lineSpecAux W (unconsumed s) line count fuel).2.2 ∧
      Inv Cp (fetchLineAux Cp W s line count fuel).2.2 ∧
      (fetchLineAux Cp W s line count fuel).2.2.srcErr = false := by
  intro fuel
  induction fuel with
  | zero =>
    intro s line count hInv hErr
    rw [fetchLineAux, lineSpecAux]
    exact ⟨rfl, rfl, rfl, hInv, hErr⟩
  | succ fuel ih =>
    intro s line count hInv hErr
    have hw := fetch_word_sim Cp s (W - count) hInv hErr (by omega)
    rcases hfw : fetch_next_word Cp s (W - count) with ⟨r, s1⟩
    rcases hws : wordSpec (unconsumed s) (W - count) with ⟨r2, U2⟩
    rw [hfw, hws] at hw
    simp only at hw
    obtain ⟨hr, hu, hi, he, _⟩ := hw
    subst hr
    rw [fetchLineAux, lineSpecAux, hfw, hws]
    cases r with
    | found w =>
      dsimp only
      by_cases hcond : w.getD (w.length - 1) 0 = 10 ∨ W ≤ count + w.length
      · rw [if_pos hcond, if_pos hcond]
        exact ⟨rfl, rfl, hu, hi, he⟩
      · rw [if_neg hcond, if_neg hcond]
        have hrec := ih s1 (line ++ w) (count + w.length) hi he
        rw [hu] at hrec
        exact hrec
    | eof => exact ⟨rfl, rfl, hu, hi, he⟩
    | ioerr => exact ⟨rfl, rfl, hu, hi, he⟩
    | overlong => exact ⟨rfl, rfl, hu, hi, he⟩

theorem fetch_line_sim (Cp W : Nat) (s : PState) (hC : W + 1 ≤ Cp) (hInv : Inv Cp s)
    (hErr : s.srcErr = false) :
    (fetch_next_line Cp W s).1 = (lineSpec W (unconsumed s)).1 ∧
    (fetch_next_line Cp W s).2.1 = (lineSpec W (unconsumed s)).2.1 ∧
    unconsumed (fetch_next_line Cp W s).2.2 = (lineSpec W (unconsumed s)).2.2 ∧
    Inv Cp (fetch_next_line Cp W s).2.2 ∧ (fetch_next_line Cp W s).2.2.srcErr = false :=
  fetchLineAux_sim Cp W hC (W + 1) s [] 0 hInv hErr

/-- Content behaviour of the abstract line assembler: it consumes a prefix of
the unconsumed bytes, the line holds exactly that prefix, the count never
exceeds `W + 1`, and whole words are consumed so the no-overlong property is
preserved. -/
theorem lineSpecAux_spec (W : Nat) :
    ∀ fuel U line count,
      ∃ k, (lineSpecAux W U line count fuel).1 = ((count + k : Nat) : Int) ∧
        (lineSpecAux W U line count fuel).2.1 = line ++ U.take k ∧
        (lineSpecAux W U line count fuel).2.2 = U.drop k ∧
        (count ≤ W → count + k ≤ W + 1) ∧
        (NoOverlong W U → NoOverlong W (U.drop k)) := by
  intro fuel
  induction fuel with
  | zero =>
    intro U line count
    rw [lineSpecAux]
    exact ⟨0, rfl, by simp, by simp, fun h => by omega, fun h => by simpa using h⟩
  | succ fuel ih =>
    intro U line count
    rw [lineSpecAux]
    rcases hws : wordSpec U (W - count) with ⟨r, U2⟩
    cases r with
    | found w =>
      obtain ⟨ha1, ha2, ha3, ha4, ha5⟩ := wordSpec_found_aligned U (W - count) w U2 hws
      dsimp only
      by_cases hcond : w.getD (w.length - 1) 0 = 10 ∨ W ≤ count + w.length
      · rw [if_pos hcond]
        refine ⟨w.length, rfl, ?_, ?_, ?_, ?_⟩
        · rw [ha1, ← ha2]
        · rw [ha1]
          exact ha3
        · intro hcw
          omega
        · intro hno
          rw [ha1]
          exact noov_drop W U hno
      · rw [if_neg hcond]
        obtain ⟨k2, hb1, hb2, hb3, hb4, hb5⟩ := ih U2 (line ++ w) (count + w.length)
        refine ⟨w.length + k2, ?_, ?_, ?_, ?_, ?_⟩
        · rw [hb1]
          congr 1
          omega
        · rw [hb2, List.append_assoc]
          congr 1
          rw [List.take_add]
          congr 1
          · rw [ha1]
            exact ha2
          · rw [ha3, ha1]
        · rw [hb3, ha3, ha1, List.drop_drop]
        · intro hcw
          have hnc : count + w.length ≤ W := by
            rcases not_or.mp hcond with ⟨_, h2⟩
            omega
          have := hb4 (by omega)
          omega
        · intro hno
          have hno2 : NoOverlong W U2 := by
            rw [ha3]
            exact noov_drop W U hno
          have hfin := hb5 hno2
          rw [ha3, List.drop_drop, ← ha1] at hfin
          exact hfin
    | eof =>
      obtain ⟨he1, he2⟩ := wordSpec_eof U (W - count) U2 hws
      refine ⟨0, rfl, by simp, by simpa using he2, fun h => by omega, ?_⟩
      intro hno
      simpa using hno
    | ioerr => exact absurd hws (scanWord_ne_ioerr U (W - count + 1) 0 U2)
    | overlong =>
      have he2 := wordSpec_overlong U (W - count) U2 hws
      refine ⟨0, rfl, by simp, by simpa using he2, fun h => by omega, ?_⟩
      intro hno
      simpa using hno

theorem lineSpec_spec (W : Nat) (U : List Nat) :
    ∃ k : Nat, (lineSpec W U).1 = (k : Int) ∧ (lineSpec W U).2.1 = U.take k ∧
      (lineSpec W U).2.2 = U.drop k ∧ k ≤ W + 1 ∧
      (NoOverlong W U → NoOverlong W (U.drop k)) := by
  obtain ⟨k, h1, h2, h3, h4, h5⟩ := lineSpecAux_spec W (W + 1) U [] 0
  refine ⟨k, by simpa using h1, by simpa using h2, h3, ?_, h5⟩
  have := h4 (by omega)
  omega

theorem lineSpec_progress (W : Nat) (U : List Nat) (hne : U ≠ []) (hno : NoOverlong W U) :
    1 ≤ (lineSpec W U).1 := by
  rw [lineSpec, lineSpecAux]
  have hfound := noov_scan_found W U hne hno
  have hws : wordSpec U (W - 0) = (.found (U.take (wordEnd U)), U.drop (wordEnd U)) := by
    simpa using hfound
  rw [hws]
  dsimp only
  have hlen1 : 1 ≤ U.length := by
    cases U
    · simp at hne
    · simp
  have hwp : 1 ≤ (U.take (wordEnd U)).length := by
    rw [List.length_take]
    have h1 := wordEnd_pos U hne
    omega
  by_cases hcond : (U.take (wordEnd U)).getD ((U.take (wordEnd U)).length - 1) 0 = 10 ∨
      W ≤ 0 + (U.take (wordEnd U)).length
  · rw [if_pos hcond]
    omega
  · rw [if_neg hcond]
    obtain ⟨k2, hb1, _, _, _, _⟩ :=
      lineSpecAux_spec W W (U.drop (wordEnd U)) ([] ++ U.take (wordEnd U))
        (0 + (U.take (wordEnd U)).length)
    rw [hb1]
    omega

/-- The buffered page renderer agrees with the abstract one. -/
theorem displayAux_sim (Cp W : Nat) (hC : W + 1 ≤ Cp) :
    ∀ P (s : PState) (content output : List Nat), Inv Cp s → s.srcErr = false →
      (displayAux Cp W s content output P).1
        = (displaySpecAux W (unconsumed s) content output P).1 ∧
      (displayAux Cp W s content output P).2.1
        = (displaySpecAux W (unconsumed s) content output P).2.1 ∧
      (displayAux Cp W s content output P).2.2.1
        = (displaySpecAux W (unconsumed s) content output P).2.2.1 ∧
      unconsumed (displayAux Cp W s content output P).2.2.2
        = (displaySpecAux W (unconsumed s) content output P).2.2.2 ∧
      Inv Cp (displayAux Cp W s content output P).2.2.2 ∧
      (displayAux Cp W s content output P).2.2.2.srcErr = false := by
  intro P
  induction P with
  | zero =>
    intro s content output hInv hErr
    rw [displayAux, displaySpecAux]
    exact ⟨rfl, rfl, rfl, rfl, hInv, hErr⟩
  | succ P ih =>
    intro s content output hInv hErr
    obtain ⟨h1, h2, h3, h4, h5⟩ := fetch_line_sim Cp W s hC hInv hErr
    rcases hfl : fetch_next_line Cp W s with ⟨c, line, s1⟩
    rcases hls : lineSpec W (unconsumed s) with ⟨c2, line2, U2⟩
    rw [hfl] at h1 h2 h3 h4 h5
    rw [hls] at h1 h2 h3
    simp only at h1 h2 h3 h4 h5
    subst h1
    subst h2
    rw [displayAux, displaySpecAux]
    dsimp only
    rw [hfl, hls]
    dsimp only
    by_cases hc : 0 < c
    · rw [if_pos hc, if_pos hc]
      have hrec := ih s1 (content ++ line)
        (output ++ line ++ (if line.getD (c.toNat - 1) 0 ≠ 10 then [10] else [])) h4 h5
      rw [h3] at hrec
      exact hrec
    · rw [if_neg hc, if_neg hc]
      by_cases hc0 : c = 0
      · rw [if_pos hc0, if_pos hc0]
        exact ⟨rfl, rfl, rfl, h3, h4, h5⟩
      · rw [if_neg hc0, if_neg hc0]
        exact ⟨rfl, rfl, rfl, h3, h4, h5⟩

/-- Content behaviour of the abstract page renderer: each page consumes a
prefix of the unconsumed bytes and renders exactly those bytes as line
content; while bytes remain (and no word is overlong) a page consumes at
least one byte. -/
theorem displaySpecAux_spec (W : Nat) :
    ∀ P U content output,
      ∃ m : Nat, (displaySpecAux W U content output P).2.1 = content ++ U.take m ∧
        (displaySpecAux W U content output P).2.2.2 = U.drop m ∧
        (NoOverlong W U → NoOverlong W (U.drop m)) ∧
        (U ≠ [] → NoOverlong W U → 1 ≤ P → 1 ≤ m) := by
  intro P
  induction P with
  | zero =>
    intro U content output
    rw [displaySpecAux]
    exact ⟨0, by simp, by simp, fun h => by simpa using h, fun _ _ h => by omega⟩
  | succ P ih =>
    intro U content output
    rw [displaySpecAux]
    obtain ⟨k, h1, h2, h3, h4, h5⟩ := lineSpec_spec W U
    rcases hls : lineSpec W U with ⟨c, line, U2⟩
    rw [hls] at h1 h2 h3
    simp only at h1 h2 h3
    subst h1
    dsimp only
    by_cases hk : 0 < k
    · rw [if_pos (by exact_mod_cast hk)]
      obtain ⟨m2, g1, g2, g3, g4⟩ := ih U2 (content ++ line)
        (output ++ line ++ (if line.getD ((((k : Nat) : Int)).toNat - 1) 0 ≠ 10 then [10] else []))
      refine ⟨k + m2, ?_, ?_, ?_, ?_⟩
      · rw [g1, h2, h3, List.append_assoc, ← List.take_add]
      · rw [g2, h3, List.drop_drop]
      · intro hno
        have hfin := g3 (by rw [h3]; exact h5 hno)
        rw [h3, List.drop_drop] at hfin
        exact hfin
      · intro _ _ _
        omega
    · have hk0 : k = 0 := by omega
      subst hk0
      rw [if_neg (by simp), if_pos (by simp)]
      refine ⟨0, by simp, by simpa using h3, ?_, ?_⟩
      · intro hno
        simpa using hno
      · intro hne hno _
        have hprog := lineSpec_progress W U hne hno
        rw [hls] at hprog
        simp at hprog

/-- The buffered command loop agrees with the abstract one. -/
theorem sessionLoop_sim (Cp W P : Nat) (hC : W + 1 ≤ Cp) :
    ∀ keys (s : PState) (cmd : Nat) (content output : List Nat), Inv Cp s → s.srcErr = false →
      sessionLoop Cp W P s cmd content output keys
        = sessionSpecLoop W P (unconsumed s) cmd content output keys := by
  intro keys
  induction keys with
  | nil =>
    intro s cmd content output hInv hErr
    rw [sessionLoop, sessionSpecLoop]
    by_cases hcmd : cmd = 102
    · rw [if_pos hcmd, if_pos hcmd]
      obtain ⟨_, hd2, hd3, _, _, _⟩ := displayAux_sim Cp W hC P s [] [] hInv hErr
      dsimp only
      simp only [display_page, displaySpec]
      rw [hd2, hd3]
    · rw [if_neg hcmd, if_neg hcmd]
  | cons key rest ih =>
    intro s cmd content output hInv hErr
    rw [sessionLoop, sessionSpecLoop]
    by_cases hcmd : cmd = 102
    · rw [if_pos hcmd, if_pos hcmd]
      obtain ⟨_, hd2, hd3, hd4, hd5, hd6⟩ := displayAux_sim Cp W hC P s [] [] hInv hErr
      dsimp only
      simp only [display_page, displaySpec]
      by_cases hq : key = 113
      · rw [if_pos hq, if_pos hq]
        rw [hd2, hd3]
      · rw [if_neg hq, if_neg hq]
        rw [hd2, hd3]
        rw [ih _ key _ _ hd5 hd6, hd4]
    · rw [if_neg hcmd, if_neg hcmd]
      dsimp only
      by_cases hq : key = 113
      · rw [if_pos hq, if_pos hq]
      · rw [if_neg hq, if_neg hq]
        exact ih s key content output hInv hErr

/-- Running the abstract session with one next-page command per remaining
byte (plus the automatic first page) renders the whole input as content. -/
theorem sessionSpecLoop_content (W P : Nat) (hP : 1 ≤ P) :
    ∀ kcount (U content output : List Nat), NoOverlong W U → U.length ≤ kcount + 1 →
      (sessionSpecLoop W P U 102 content output (List.replicate kcount 102)).1
        = content ++ U := by
  intro kcount
  induction kcount with
  | zero =>
    intro U content output hno hlen
    rw [List.replicate_zero]
    rw [sessionSpecLoop]
    rw [if_pos rfl]
    obtain ⟨m, g1, g2, g3, g4⟩ := displaySpecAux_spec W P U [] []
    dsimp only
    simp only [displaySpec]
    rw [g1]
    have htm : U.take m = U := by
      by_cases hU : U = []
      · subst hU
        simp
      · refine List.take_of_length_le ?_
        have := g4 hU hno hP
        omega
    rw [htm]
    simp
  | succ kcount ih =>
    intro U content output hno hlen
    rw [List.replicate_succ]
    rw [sessionSpecLoop]
    rw [if_pos rfl]
    dsimp only
    rw [if_neg (by omega)]
    obtain ⟨m, g1, g2, g3, g4⟩ := displaySpecAux_spec W P U [] []
    simp only [displaySpec]
    rw [g1, g2]
    have hlen2 : (U.drop m).length ≤ kcount + 1 := by
      rw [List.length_drop]
      by_cases hU : U = []
      · subst hU
        simp
      · have := g4 hU hno hP
        omega
    rw [ih (U.drop m) _ _ (g3 hno) hlen2]
    rw [List.append_assoc, List.nil_append, List.take_append_drop]

/-- After `main`'s initial refill, the unconsumed bytes are exactly the input
file and the window invariant holds. -/
theorem startState_spec (Cp : Nat) (input : List Nat) (h1 : 1 ≤ Cp) :
    unconsumed (startState Cp input) = input ∧ Inv Cp (startState Cp input) ∧
      (startState Cp input).srcErr = false := by
  rw [startState]
  by_cases hin : input = []
  · subst hin
    rw [refill_buffer]
    dsimp only [initState]
    rw [if_neg (by simp), if_neg (by simp)]
    dsimp only
    refine ⟨?_, ?_, rfl⟩
    · apply unconsumed_eq_nil
      · show ((0 : Nat) : Int) - 1 + 1 ≤ ((0 : Nat) : Int)
        omega
      · rfl
    · refine ⟨by simp, ?_, ?_⟩
      · show ((0 : Nat) : Int) ≤ ((0 : Nat) : Int) - 1 + 1
        omega
      · show ((0 : Nat) : Int) - 1 + 1 ≤ (Cp : Int)
        omega
  · have hlen : 0 < input.length := List.length_pos.mpr hin
    have hn : 0 < min (Cp - 0) input.length := by omega
    rw [refill_buffer]
    dsimp only [initState]
    rw [if_pos hn]
    dsimp only
    set n := min (Cp - 0) input.length with hn_def
    have hnle : n ≤ input.length := by omega
    have hnC : n ≤ Cp := by omega
    have hd : (input.take n).length = n := by
      rw [List.length_take]
      omega
    have hslen : (listWrite (List.replicate Cp 0) 0 (input.take n)).length = Cp := by
      rw [listWrite_length _ _ _ (by simp [hd]; omega)]
      simp
    set s1 : PState := { store := listWrite (List.replicate Cp 0) 0 (input.take n),
                         bstart := 0, bend := ((0 : Nat) : Int) - 1 + (n : Int),
                         src := input.drop n, srcErr := false, hasData := true } with hs1_def
    have hInv1 : Inv Cp s1 := by
      rw [hs1_def]
      refine ⟨hslen, ?_, ?_⟩
      · show ((0 : Nat) : Int) ≤ ((0 : Nat) : Int) - 1 + (n : Int) + 1
        omega
      · show ((0 : Nat) : Int) - 1 + (n : Int) + 1 ≤ (Cp : Int)
        omega
    refine ⟨?_, hInv1, rfl⟩
    have hw : wlen s1 = n := by
      rw [hs1_def]
      simp only [wlen]
      omega
    have hsrc1 : s1.src = input.drop n := by rw [hs1_def]
    show window s1 ++ s1.src = input
    rw [window_eq_copyOut Cp s1 hInv1, hw, hsrc1]
    have h5 := copyOut_listWrite_self (List.replicate Cp 0) (input.take n) 0
      (by simp [hd]; omega)
    rw [hd] at h5
    have hb1 : s1.store = listWrite (List.replicate Cp 0) 0 (input.take n) := by rw [hs1_def]
    have hb0 : s1.bstart = 0 := by rw [hs1_def]
    rw [hb1, hb0, h5, List.take_append_drop]

theorem runSession_sim (Cp W P : Nat) (hC : W + 1 ≤ Cp) (input keys : List Nat) :
    runSession Cp W P input keys = runSpec W P input keys := by
  obtain ⟨h1, h2, h3⟩ := startState_spec Cp input (by omega)
  rw [runSession, runSpec]
  rw [show (refill_buffer Cp (initState Cp input) 0).1 = startState Cp input from rfl]
  rw [sessionLoop_sim Cp W P hC keys _ 102 [] [] h2 h3, h1]

theorem runSpec_content (W P : Nat) (hP : 1 ≤ P) (input : List Nat)
    (hno : NoOverlong W input) :
    (runSpec W P input (List.replicate input.length 102)).1 = input := by
  rw [runSpec]
  have h := sessionSpecLoop_content W P hP input.length input [] [] hno (by omega)
  simpa using h

/-- Any word the scan loop returns holds at least one byte (the C loop
increments `count` before every `more = 0` exit, and the final-word exit is
guarded by `if (count)`). -/
theorem fetch_word_found_pos (Cp : Nat) :
    ∀ fuel s start count w s2, fetchWordAux Cp s start count fuel = (.found w, s2) →
      1 ≤ w.length := by
  intro fuel
  induction fuel with
  | zero =>
    intro s start count w s2 h
    simp [fetchWordAux] at h
  | succ fuel ih =>
    intro s start count w s2 h
    rw [fetchWordAux] at h
    split at h
    · dsimp only at h
      split at h
      · split at h
        · simp only [finishWord, Prod.mk.injEq, WordRes.found.injEq] at h
          rw [← h.1, copyOut_length]
          omega
        · split at h
          · simp at h
          · split at h
            · simp only [finishWord, Prod.mk.injEq, WordRes.found.injEq] at h
              rw [← h.1, copyOut_length]
              omega
            · exact ih _ _ _ _ _ h
      · split at h
        · simp at h
        · split at h
          · simp at h
          · split at h
            · simp only [finishWord, Prod.mk.injEq, WordRes.found.injEq] at h
              rw [← h.1, copyOut_length]
              omega
            · exact ih _ _ _ _ _ h
    · split at h
      · simp only [finishWord, Prod.mk.injEq, WordRes.found.injEq] at h
        rw [← h.1, copyOut_length]
        omega
      · exact ih _ _ _ _ _ h

/-- The line loop is insensitive to extra fuel beyond `W + 1 - count`: with
the accumulated `count` below `W`, each consuming iteration strictly
increases `count`, so the C `while (more)` loop performs at most `W`
iterations and the fuel bound `W + 1` used by `fetch_next_line` is exact. -/
theorem fetchLineAux_fuel_stable (Cp W : Nat) :
    ∀ fuel s line count, count ≤ W → W + 1 ≤ count + fuel →
      fetchLineAux Cp W s line count (fuel + 1) = fetchLineAux Cp W s line count fuel := by
  intro fuel
  induction fuel with
  | zero =>
    intro s line count h1 h2
    omega
  | succ fuel ih =>
    intro s line count h1 h2
    rw [fetchLineAux, fetchLineAux]
    rcases hfw : fetch_next_word Cp s (W - count) with ⟨r, s1⟩
    cases r with
    | found w =>
      dsimp only
      by_cases hcond : w.getD (w.length - 1) 0 = 10 ∨ W ≤ count + w.length
      · rw [if_pos hcond, if_pos hcond]
      · rw [if_neg hcond, if_neg hcond]
        have hwp := fetch_word_found_pos Cp (W - count + 1) s s.bstart 0 w s1 hfw
        have hcw : count + w.length ≤ W := by
          rcases not_or.mp hcond with ⟨_, hh⟩
          omega
        exact ih s1 (line ++ w) (count + w.length) hcw (by omega)
    | eof => rfl
    | ioerr => rfl
    | overlong => rfl

/-- The fuel `W + 1` in `fetch_next_line` is not a restriction: any larger
fuel computes the same line, so the model agrees with the unbounded C loop. -/
theorem fetch_next_line_fuel_independent (Cp W : Nat) (s : PState) (d : Nat) :
    fetchLineAux Cp W s [] 0 (W + 1 + d) = fetch_next_line Cp W s := by
  induction d with
  | zero => rfl
  | succ d ih =>
    rw [show W + 1 + (d + 1) = (W + d + 1) + 1 by omega]
    rw [fetchLineAux_fuel_stable Cp W (W + d + 1) s [] 0 (by omega) (by omega)]
    rw [show W + d + 1 = W + 1 + d by omega]
    exact ih

/-- `refill_buffer` preserves the window invariant for any preserved count
within capacity, in every outcome: success, exhaustion, and I/O failure. -/
theorem refill_preserves_inv (Cp preserved : Nat) (s : PState) (hp : preserved ≤ Cp)
    (hsl : s.store.length = Cp) : Inv Cp (refill_buffer Cp s preserved).1 := by
  rw [refill_buffer]
  by_cases hn : 0 < min (Cp - preserved) s.src.length
  · rw [if_pos hn]
    refine ⟨?_, ?_, ?_⟩
    · show (listWrite s.store preserved
          (s.src.take (min (Cp - preserved) s.src.length))).length = Cp
      rw [listWrite_length _ _ _ (by rw [List.length_take]; omega)]
      exact hsl
    · show ((0 : Nat) : Int)
        ≤ (preserved : Int) - 1 + ((min (Cp - preserved) s.src.length : Nat) : Int) + 1
      omega
    · show (preserved : Int) - 1 + ((min (Cp - preserved) s.src.length : Nat) : Int) + 1
        ≤ (Cp : Int)
      omega
  · rw [if_neg hn]
    by_cases he : (s.srcErr && decide (0 < Cp - preserved)) = true
    · rw [if_pos he]
      exact ⟨hsl, by show ((0 : Nat) : Int) ≤ (preserved : Int) - 1 + 1; omega,
        by show (preserved : Int) - 1 + 1 ≤ (Cp : Int); omega⟩
    · rw [if_neg he]
      exact ⟨hsl, by show ((0 : Nat) : Int) ≤ (preserved : Int) - 1 + 1; omega,
        by show (preserved : Int) - 1 + 1 ≤ (Cp : Int); omega⟩

/-- Shape of `refill_buffer`'s result in every branch: the window start is
reset to 0, the return value is at least -1, and the window end is
`preserved - 1` when no byte was delivered (return 0 or -1) and
`preserved - 1 + return` on success. -/
theorem refill_shape (Cp preserved : Nat) (s : PState) :
    (refill_buffer Cp s preserved).1.bstart = 0 ∧
    -1 ≤ (refill_buffer Cp s preserved).2 ∧
    ((refill_buffer Cp s preserved).2 ≤ 0 →
      (refill_buffer Cp s preserved).1.bend = (preserved : Int) - 1) ∧
    (0 < (refill_buffer Cp s preserved).2 →
      (refill_buffer Cp s preserved).1.bend
        = (preserved : Int) - 1 + (refill_buffer Cp s preserved).2) := by
  rw [refill_buffer]
  by_cases hn : 0 < min (Cp - preserved) s.src.length
  · rw [if_pos hn]
    exact ⟨rfl, by omega, fun h => absurd h (by omega), fun _ => rfl⟩
  · rw [if_neg hn]
    by_cases he : (s.srcErr && decide (0 < Cp - preserved)) = true
    · rw [if_pos he]
      exact ⟨rfl, by omega, fun _ => rfl, fun h => absurd h (by omega)⟩
    · rw [if_neg he]
      exact ⟨rfl, by omega, fun _ => rfl, fun h => absurd h (by omega)⟩

/-- The scan loop of `fetch_next_word` preserves the window invariant in
every outcome - found, eof, ioerr (a failing refill mid-scan), and overlong
(fuel exhausted) - with no assumption on the byte source. -/
theorem fetchWordAux_inv (Cp fuel : Nat) : ∀ (s : PState) (count : Nat),
    Inv Cp s → count ≤ wlen s → Inv Cp (fetchWordAux Cp s s.bstart count fuel).2 := by
  induction fuel with
  | zero =>
    intro s count hInv _
    rw [fetchWordAux]
    exact hInv
  | succ fuel ih =>
    intro s count hInv hcnt
    have hsl := hInv.store_len
    have hs1 := hInv.start_le
    have hs2 := hInv.end_le
    have hwle : count ≤ Cp := by
      simp only [wlen] at hcnt
      omega
    by_cases hg : s.bend < ((s.bstart + count : Nat) : Int)
    · by_cases hc : 0 < count
      · rw [fetchWordAux, if_pos hg]
        simp only [if_pos hc]
        set rr := refill_buffer Cp
            { s with store := listWrite s.store 0 (copyOut s.store s.bstart count) } count
          with hrrdef
        have hrrInv : Inv Cp rr.1 := by
          rw [hrrdef]
          refine refill_preserves_inv Cp count _ hwle ?_
          show (listWrite s.store 0 (copyOut s.store s.bstart count)).length = Cp
          rw [listWrite_length _ _ _ (by rw [copyOut_length]; omega)]
          exact hsl
        have hsh := refill_shape Cp count
          { s with store := listWrite s.store 0 (copyOut s.store s.bstart count) }
        rw [← hrrdef] at hsh
        obtain ⟨hb0, hbm1, hble, hbgt⟩ := hsh
        by_cases h0 : rr.2 = 0
        · rw [if_pos h0]
          refine ⟨hrrInv.store_len, ?_, hrrInv.end_le⟩
          show ((rr.1.bstart + count : Nat) : Int) ≤ rr.1.bend + 1
          rw [hb0, hble (by omega)]
          push_cast
          omega
        · rw [if_neg h0]
          by_cases h1 : rr.2 = -1
          · rw [if_pos h1]
            exact hrrInv
          · rw [if_neg h1]
            have hn1 : 1 ≤ rr.2 := by omega
            have hbend : rr.1.bend = (count : Int) - 1 + rr.2 := hbgt (by omega)
            by_cases hd : isDelim (rr.1.store.getD (rr.1.bstart + count) 0) = true
            · rw [if_pos hd]
              refine ⟨hrrInv.store_len, ?_, hrrInv.end_le⟩
              show ((rr.1.bstart + (count + 1) : Nat) : Int) ≤ rr.1.bend + 1
              rw [hb0, hbend]
              push_cast
              omega
            · rw [if_neg hd]
              refine ih rr.1 (count + 1) hrrInv ?_
              simp only [wlen]
              rw [hbend, hb0]
              omega
      · rw [fetchWordAux, if_pos hg]
        simp only [if_neg hc]
        set rr := refill_buffer Cp { s with store := s.store } count with hrrdef
        have hrrInv : Inv Cp rr.1 := by
          rw [hrrdef]
          exact refill_preserves_inv Cp count _ hwle hsl
        have hsh := refill_shape Cp count { s with store := s.store }
        rw [← hrrdef] at hsh
        obtain ⟨hb0, hbm1, hble, hbgt⟩ := hsh
        by_cases h0 : rr.2 = 0
        · rw [if_pos h0]
          exact hrrInv
        · rw [if_neg h0]
          by_cases h1 : rr.2 = -1
          · rw [if_pos h1]
            exact hrrInv
          · rw [if_neg h1]
            have hn1 : 1 ≤ rr.2 := by omega
            have hbend : rr.1.bend = (count : Int) - 1 + rr.2 := hbgt (by omega)
            by_cases hd : isDelim (rr.1.store.getD (rr.1.bstart + count) 0) = true
            · rw [if_pos hd]
              refine ⟨hrrInv.store_len, ?_, hrrInv.end_le⟩
              show ((rr.1.bstart + (count + 1) : Nat) : Int) ≤ rr.1.bend + 1
              rw [hb0, hbend]
              push_cast
              omega
            · rw [if_neg hd]
              refine ih rr.1 (count + 1) hrrInv ?_
              simp only [wlen]
              rw [hbend, hb0]
              omega
    · rw [fetchWordAux, if_neg hg]
      by_cases hd : isDelim (s.store.getD (s.bstart + count) 0) = true
      · rw [if_pos hd]
        refine ⟨hsl, ?_, hs2⟩
        show ((s.bstart + (count + 1) : Nat) : Int) ≤ s.bend + 1
        omega
      · rw [if_neg hd]
        refine ih s (count + 1) hInv ?_
        simp only [wlen]
        omega

/-!  Claim theorems. -/

/-- C1: the claim says a word longer than LineWidth appears intact, unsplit,
as the sole content of some line, never truncated, duplicated or dropped.
The code drops it: on an input whose only word is 81 bytes of `'a'`
(more than `LINE_WIDTH = 80`), `fetch_next_word` returns -2, `fetch_next_line`
returns 0, and `display_page` misreads that 0 as end of stream, so the
session renders no content at all and prints the `=== EOF ===` sentinel for
the automatic first page and again for the next-page command; the word is
never emitted and the pager can never progress past it. -/
theorem overlong_word_never_rendered :
    runSession BUFFER_SIZE LINE_WIDTH PAGE_SIZE (List.replicate 81 97) [102]
      = ([], eofSentinel ++ eofSentinel) := by decide

/-- C2: when `fetch_next_word` signals Overlong, nothing is consumed: the
sequence of unconsumed bytes (window contents followed by unread source
bytes) is unchanged, the window start is not advanced, and a subsequent call
whose budget covers the word returns the partially-scanned word whole. -/
theorem overlong_consumes_nothing (Cp max_size : Nat) (s s2 : PState)
    (hInv : Inv Cp s) (hErr : s.srcErr = false) (hC : max_size + 1 ≤ Cp)
    (h : fetch_next_word Cp s max_size = (.overlong, s2)) :
    unconsumed s2 = unconsumed s ∧ s2.bstart ≤ s.bstart ∧
    ∀ m2, wordEnd (unconsumed s) ≤ m2 → m2 + 1 ≤ Cp →
      (fetch_next_word Cp s2 m2).1
        = .found ((unconsumed s).take (wordEnd (unconsumed s))) := by
  obtain ⟨w1, w2, w3, w4, w5⟩ := fetch_word_sim Cp s max_size hInv hErr hC
  rw [h] at w1 w2 w3 w4 w5
  simp only at w1 w2 w3 w4 w5
  rcases hws : wordSpec (unconsumed s) max_size with ⟨r, U2⟩
  rw [hws] at w1 w2 w5
  simp only at w1 w2 w5
  subst w1
  have hU2 := wordSpec_overlong (unconsumed s) max_size U2 hws
  have hUs2 : unconsumed s2 = unconsumed s := by rw [w2, hU2]
  refine ⟨hUs2, w5 rfl, ?_⟩
  intro m2 hm2 hm2C
  obtain ⟨v1, _, _, _, _⟩ := fetch_word_sim Cp s2 m2 w3 w4 (by omega)
  rw [hUs2] at v1
  rw [v1]
  have hne : unconsumed s ≠ [] := by
    intro hnil
    rw [hnil] at hws
    rw [wordSpec, scanWord] at hws
    simp at hws
  rcases wordEnd_delim_or_all (unconsumed s) with ⟨hdel, _⟩ | hall
  · rw [wordSpec]
    rw [scanWord_complete_delim (unconsumed s) (m2 + 1) hne hdel (by omega)]
  · have hwe : wordEnd (unconsumed s) = (unconsumed s).length := by
      apply wordEnd_eq_of_nodelim
      intro i hi
      apply hall
      have hgi : (unconsumed s).getD i 0 = (unconsumed s)[i] := by
        simp [List.getElem?_eq_getElem hi]
      rw [hgi]
      exact List.getElem_mem hi
    rw [wordSpec]
    rw [scanWord_complete_nodelim (unconsumed s) (m2 + 1) hne hall (by omega)]
    rw [hwe, List.take_length]

/-- Witness for C2 at a concrete state: the window holds `"aaa "`, the scan
with budget 1 overlongs without consuming, and a rescan with budget 4
returns the whole word `"aaa "`. -/
theorem overlong_consumes_nothing_witness :
    unconsumed (fetch_next_word 5 sOverEx 1).2 = unconsumed sOverEx ∧
    (fetch_next_word 5 sOverEx 1).2.bstart ≤ sOverEx.bstart ∧
    (fetch_next_word 5 (fetch_next_word 5 sOverEx 1).2 4).1
      = .found ((unconsumed sOverEx).take (wordEnd (unconsumed sOverEx))) := by
  obtain ⟨h1, h2, h3⟩ := overlong_consumes_nothing 5 1 sOverEx (fetch_next_word 5 sOverEx 1).2
    (by constructor <;> decide) (by decide) (by decide) (by decide)
  exact ⟨h1, h2, h3 4 (by decide) (by decide)⟩

/-- C3 counterexample: a line assembled from the two words `"a "` and 78
`'b'` bytes plus `" "` has 81 bytes, so `fetch_next_line` does return a
value exceeding `LINE_WIDTH` for a multi-word line. -/
theorem line_width_exceeded :
    (fetch_next_line BUFFER_SIZE LINE_WIDTH (startState BUFFER_SIZE inWide)).1 = 81 ∧
    (fetch_next_line BUFFER_SIZE LINE_WIDTH (startState BUFFER_SIZE inWide)).2.1
      = [97, 32] ++ List.replicate 78 98 ++ [32] ∧
    ¬((fetch_next_line BUFFER_SIZE LINE_WIDTH (startState BUFFER_SIZE inWide)).1
        ≤ ((LINE_WIDTH : Nat) : Int)) := by decide

/-- C3 as amended: no value returned by `fetch_next_line` exceeds
`LINE_WIDTH + 1`; the one-byte overflow is the final word's trailing
delimiter, which the scanner admits with `count ≤ max_size + 1`. -/
theorem line_width_bound (s : PState) (hInv : Inv BUFFER_SIZE s)
    (hErr : s.srcErr = false) :
    (fetch_next_line BUFFER_SIZE LINE_WIDTH s).1 ≤ ((LINE_WIDTH + 1 : Nat) : Int) := by
  obtain ⟨h1, _, _, _, _⟩ := fetch_line_sim BUFFER_SIZE LINE_WIDTH s (by decide) hInv hErr
  rw [h1]
  obtain ⟨k, g1, _, _, g4, _⟩ := lineSpec_spec LINE_WIDTH (unconsumed s)
  rw [g1]
  exact_mod_cast g4

/-- Witness for the amended C3 at a concrete state. -/
theorem line_width_bound_witness :
    (fetch_next_line BUFFER_SIZE LINE_WIDTH (startState BUFFER_SIZE [104, 105])).1
      ≤ ((LINE_WIDTH + 1 : Nat) : Int) :=
  line_width_bound (startState BUFFER_SIZE [104, 105]) (by constructor <;> decide) (by decide)

/-- C4 counterexample: after the first page already hit end of stream (its
sentinel was printed), a further next-page command is not a no-op and the
session does not end: the renderer runs again and prints the sentinel again,
and the loop keeps waiting for keys. -/
theorem ended_not_absorbing :
    runSession BUFFER_SIZE LINE_WIDTH PAGE_SIZE [104, 105] [102]
      = ([104, 105], [104, 105, 10] ++ eofSentinel ++ eofSentinel) := by decide

/-- C4 as amended: the controller ignores the renderer's status; on an
exhausted stream every further `display_page` call returns 0, renders no
content, emits the end-of-input sentinel again, and leaves the stream
exhausted, so each further next-page command repeats the sentinel. -/
theorem next_page_after_end_reemits (Cp W P : Nat) (s : PState) (hP : 1 ≤ P)
    (hC : W + 1 ≤ Cp) (hInv : Inv Cp s) (hErr : s.srcErr = false)
    (hU : unconsumed s = []) :
    (display_page Cp W P s).1 = 0 ∧ (display_page Cp W P s).2.1 = [] ∧
    (display_page Cp W P s).2.2.1 = eofSentinel ∧
    unconsumed (display_page Cp W P s).2.2.2 = [] := by
  obtain ⟨d1, d2, d3, d4, _, _⟩ := displayAux_sim Cp W hC P s [] [] hInv hErr
  rw [hU] at d1 d2 d3 d4
  obtain ⟨n, rfl⟩ : ∃ n, P = n + 1 := ⟨P - 1, by omega⟩
  have hl : lineSpec W ([] : List Nat) = (((0 : Nat) : Int), [], []) := by
    rw [lineSpec, lineSpecAux]
    rw [show wordSpec ([] : List Nat) (W - 0) = (.eof, []) from by rw [wordSpec, scanWord]; simp]
  have hnil : displaySpecAux W ([] : List Nat) [] [] (n + 1) = (0, [], eofSentinel, []) := by
    rw [displaySpecAux]
    rw [hl]
    norm_num
  rw [hnil] at d1 d2 d3 d4
  exact ⟨d1, d2, d3, d4⟩

/-- Witness for the amended C4 at a concrete exhausted state. -/
theorem next_page_after_end_reemits_witness :
    (display_page BUFFER_SIZE LINE_WIDTH PAGE_SIZE sEndedEx).1 = 0 ∧
    (display_page BUFFER_SIZE LINE_WIDTH PAGE_SIZE sEndedEx).2.1 = [] ∧
    (display_page BUFFER_SIZE LINE_WIDTH PAGE_SIZE sEndedEx).2.2.1 = eofSentinel ∧
    unconsumed (display_page BUFFER_SIZE LINE_WIDTH PAGE_SIZE sEndedEx).2.2.2 = [] :=
  next_page_after_end_reemits BUFFER_SIZE LINE_WIDTH PAGE_SIZE sEndedEx (by decide)
    (by decide) (by constructor <;> decide) (by decide) (by decide)

/-- C5 counterexample: on an I/O failure, `refill_buffer(3)` returns -1 but
sets the window end to 2 = preserved_count - 1, not to
preserved_count - 1 + bytes_read = 1, so the claimed end formula fails for
the negative result. -/
theorem refill_error_end_formula_fails :
    (refill_buffer 11 sFailEx 3).2 = -1 ∧ (refill_buffer 11 sFailEx 3).1.bend = 2 ∧
    ¬((refill_buffer 11 sFailEx 3).1.bend = 3 - 1 + (refill_buffer 11 sFailEx 3).2) := by
  decide

/-- C5 as amended: `refill_buffer(preserved_count)` always resets the window
start to 0; when the read delivers `n = min (C - preserved_count) available`
bytes with `n > 0` it writes them at offset `preserved_count`, sets the
window end to `preserved_count - 1 + n` and returns `n`; when no byte is
delivered it leaves the store unchanged, sets the window end to
`preserved_count - 1` (not `preserved_count - 1 + bytes_read`) and returns 0
or, on failure, a negative value. -/
theorem refill_contract (Cp preserved : Nat) (s : PState) (_hp : preserved ≤ Cp) :
    (refill_buffer Cp s preserved).1.bstart = 0 ∧
    (0 < min (Cp - preserved) s.src.length →
      (refill_buffer Cp s preserved).2 = ((min (Cp - preserved) s.src.length : Nat) : Int) ∧
      (refill_buffer Cp s preserved).1.store
        = listWrite s.store preserved (s.src.take (min (Cp - preserved) s.src.length)) ∧
      (refill_buffer Cp s preserved).1.bend
        = (preserved : Int) - 1 + ((min (Cp - preserved) s.src.length : Nat) : Int)) ∧
    (min (Cp - preserved) s.src.length = 0 →
      ((refill_buffer Cp s preserved).2 = 0 ∨ (refill_buffer Cp s preserved).2 = -1) ∧
      (refill_buffer Cp s preserved).1.store = s.store ∧
      (refill_buffer Cp s preserved).1.bend = (preserved : Int) - 1) := by
  rw [refill_buffer]
  by_cases hn : 0 < min (Cp - preserved) s.src.length
  · rw [if_pos hn]
    exact ⟨rfl, fun _ => ⟨rfl, rfl, rfl⟩, fun h0 => by omega⟩
  · rw [if_neg hn]
    by_cases he : (s.srcErr && decide (0 < Cp - preserved)) = true
    · rw [if_pos he]
      exact ⟨rfl, fun hh => by omega, fun _ => ⟨Or.inr rfl, rfl, rfl⟩⟩
    · rw [if_neg he]
      exact ⟨rfl, fun hh => by omega, fun _ => ⟨Or.inl rfl, rfl, rfl⟩⟩

/-- Witness for the amended C5 at a concrete failing source. -/
theorem refill_contract_witness :
    (refill_buffer 11 sFailEx 3).1.bstart = 0 ∧
    (0 < min (11 - 3) sFailEx.src.length →
      (refill_buffer 11 sFailEx 3).2 = ((min (11 - 3) sFailEx.src.length : Nat) : Int) ∧
      (refill_buffer 11 sFailEx 3).1.store
        = listWrite sFailEx.store 3 (sFailEx.src.take (min (11 - 3) sFailEx.src.length)) ∧
      (refill_buffer 11 sFailEx 3).1.bend
        = (3 : Int) - 1 + ((min (11 - 3) sFailEx.src.length : Nat) : Int)) ∧
    (min (11 - 3) sFailEx.src.length = 0 →
      ((refill_buffer 11 sFailEx 3).2 = 0 ∨ (refill_buffer 11 sFailEx 3).2 = -1) ∧
      (refill_buffer 11 sFailEx 3).1.store = sFailEx.store ∧
      (refill_buffer 11 sFailEx 3).1.bend = (3 : Int) - 1) :=
  refill_contract 11 3 sFailEx (by decide)

/-- C6: with LineWidth 10, PageSize 1 (capacity (10+1)*1 = 11), the input
bytes of `"abcdefgh ij\nklmno"` render as page `"abcdefgh "` plus an
inserted line feed, then page `"ij\n"`, then page `"klmno"` plus an inserted
line feed, then the end-of-input sentinel; the bytes written by `fwrite`
reproduce the input exactly. -/
theorem compact_example_rendering :
    runSession 11 10 1 exInputC6 [102, 102, 102] = (exInputC6, exOutC6) := by decide

/-- C7 counterexample: with an 81-byte word as input, three next-page
commands render only end-of-input sentinels and no content byte at all, so
stripping the renderer-inserted line feeds (the first result component is
exactly the rendered output without inserted line feeds and sentinels) does
not reconstruct the input. -/
theorem lossless_fails_on_overlong :
    (runSession BUFFER_SIZE LINE_WIDTH PAGE_SIZE (List.replicate 81 97)
        [102, 102, 102]).1 = [] ∧
    (runSession BUFFER_SIZE LINE_WIDTH PAGE_SIZE (List.replicate 81 97)
        [102, 102, 102]).2
      = eofSentinel ++ eofSentinel ++ eofSentinel ++ eofSentinel ∧
    ([] : List Nat) ≠ List.replicate 81 97 := by decide

/-- C7 as amended: for every input in which no word is longer than
`LINE_WIDTH` (no run of more than 80 consecutive non-delimiter bytes),
paging to the end reconstructs the input exactly: the bytes the renderer
passes to `fwrite` - the rendered output minus the inserted line feeds and
sentinels - are precisely the input bytes. -/
theorem lossless_reconstruction (input : List Nat) (hno : NoOverlong LINE_WIDTH input) :
    (runSession BUFFER_SIZE LINE_WIDTH PAGE_SIZE input
        (List.replicate input.length 102)).1 = input := by
  rw [runSession_sim BUFFER_SIZE LINE_WIDTH PAGE_SIZE (by decide) input _]
  exact runSpec_content LINE_WIDTH PAGE_SIZE (by decide) input hno

/-- Witness for the amended C7 at a concrete input. -/
theorem lossless_reconstruction_witness :
    (runSession BUFFER_SIZE LINE_WIDTH PAGE_SIZE [104, 105, 10, 120]
        (List.replicate ([104, 105, 10, 120] : List Nat).length 102)).1
      = [104, 105, 10, 120] :=
  lossless_reconstruction [104, 105, 10, 120] (by show runOK LINE_WIDTH 0 [104, 105, 10, 120] = true; decide)

/-- C8 counterexample: the same input `"abcd e"` yields different word
sequences under capacities 3 and 1620: with capacity 3 the refill at the
buffer boundary requests 0 bytes, `read` returns 0, and the scanner wrongly
treats the situation as end of file, chopping the first word to `"abc"`. -/
theorem capacity_observable :
    (fetch_next_word 3 (startState 3 inChop) LINE_WIDTH).1 = .found [97, 98, 99] ∧
    (fetch_next_word BUFFER_SIZE (startState BUFFER_SIZE inChop) LINE_WIDTH).1
      = .found [97, 98, 99, 100, 32] ∧
    (fetch_next_word 3 (startState 3 inChop) LINE_WIDTH).1
      ≠ (fetch_next_word BUFFER_SIZE (startState BUFFER_SIZE inChop) LINE_WIDTH).1 := by
  decide

/-- C8 as amended: for any two capacities that both fit a full scan budget
(at least LINE_WIDTH + 1 bytes), the whole session - content and rendered
output - is identical for every input and key sequence. -/
theorem capacity_transparent (Cp1 Cp2 : Nat) (input keys : List Nat)
    (h1 : LINE_WIDTH + 1 ≤ Cp1) (h2 : LINE_WIDTH + 1 ≤ Cp2) :
    runSession Cp1 LINE_WIDTH PAGE_SIZE input keys
      = runSession Cp2 LINE_WIDTH PAGE_SIZE input keys := by
  rw [runSession_sim Cp1 LINE_WIDTH PAGE_SIZE h1 input keys,
    runSession_sim Cp2 LINE_WIDTH PAGE_SIZE h2 input keys]

/-- Witness for the amended C8 at concrete capacities 81 and 200. -/
theorem capacity_transparent_witness :
    runSession 81 LINE_WIDTH PAGE_SIZE [104, 105] [102]
      = runSession 200 LINE_WIDTH PAGE_SIZE [104, 105] [102] :=
  capacity_transparent 81 200 [104, 105] [102] (by decide) (by decide)

/-- C9: the window invariant 0 ≤ start ≤ end + 1 ≤ C holds for the zeroed
globals at start-up (when C ≥ 1) and after main's initial refill, and it is
preserved with no assumption on the byte source: by `refill_buffer` for any
preserved count within capacity in every outcome (success, exhaustion, I/O
failure), and by `fetch_next_word` in every outcome (found, eof, ioerr,
overlong), including the compaction-refill steps inside the scan; in
particular every store access of the scan stays inside the window. -/
theorem window_invariant_preserved (Cp max_size preserved : Nat) (s : PState)
    (input : List Nat) (h1 : 1 ≤ Cp) (hInv : Inv Cp s) (hp : preserved ≤ Cp) :
    Inv Cp (initState Cp input) ∧
    Inv Cp (refill_buffer Cp (initState Cp input) 0).1 ∧
    Inv Cp (refill_buffer Cp s preserved).1 ∧
    Inv Cp (fetch_next_word Cp s max_size).2 := by
  refine ⟨?_, ?_, refill_preserves_inv Cp preserved s hp hInv.store_len, ?_⟩
  · refine ⟨by simp [initState], ?_, ?_⟩
    · show ((0 : Nat) : Int) ≤ (0 : Int) + 1
      omega
    · show (0 : Int) + 1 ≤ (Cp : Int)
      omega
  · exact refill_preserves_inv Cp 0 (initState Cp input) (by omega) (by simp [initState])
  · rw [fetch_next_word]
    exact fetchWordAux_inv Cp (max_size + 1) s 0 hInv (by omega)

/-- Witness for C9 at a concrete state whose byte source fails: the scan of
`sFailEx` runs off the window end, compacts, and its refill returns -1, so
the `fetch_next_word` conjunct is exercised on the ioerr outcome and the
`refill_buffer` conjunct on the failure branch. -/
theorem window_invariant_preserved_witness :
    Inv 11 (initState 11 [104]) ∧ Inv 11 (refill_buffer 11 (initState 11 [104]) 0).1 ∧
    Inv 11 (refill_buffer 11 sFailEx 3).1 ∧ Inv 11 (fetch_next_word 11 sFailEx 5).2 :=
  window_invariant_preserved 11 5 3 sFailEx [104] (by decide)
    (by constructor <;> decide) (by decide)

/-- C10: when the first unconsumed byte of the window is a delimiter (space,
tab or line feed), `fetch_next_word` returns count 1 with exactly that byte
as the word, advancing the window start by one; an empty input line thus
survives as a one-byte line-feed word, which `fetch_next_line` turns into a
blank line of the output. -/
theorem delimiter_single_byte_word (Cp max_size : Nat) (s : PState)
    (hmax : 1 ≤ max_size) (hw : 1 ≤ wlen s)
    (hd : isDelim ((window s).getD 0 0) = true) :
    fetch_next_word Cp s max_size
      = (.found [(window s).getD 0 0], { s with bstart := s.bstart + 1 }) := by
  have hbyte : (window s).getD 0 0 = s.store.getD s.bstart 0 := by
    simp [window, List.getD_eq_getElem?_getD,
      List.getElem?_take_of_lt (show 0 < wlen s by omega), List.getElem?_drop]
  have hg : ¬ s.bend < ((s.bstart + 0 : Nat) : Int) := by
    simp only [wlen] at hw
    omega
  obtain ⟨fuel, rfl⟩ : ∃ f, max_size = f + 1 := ⟨max_size - 1, by omega⟩
  rw [fetch_next_word]
  rw [fetchWordAux_step_delim Cp (fuel + 1) s 0 hg
    (by rw [show s.bstart + 0 = s.bstart from rfl, ← hbyte]; exact hd)]
  have hone : copyOut s.store s.bstart (0 + 1) = [s.store.getD s.bstart 0] := by
    simp [copyOut, List.range_succ]
  rw [hone, ← hbyte]

/-- Witness for C10 at a concrete window whose first byte is a line feed. -/
theorem delimiter_single_byte_word_witness :
    fetch_next_word 2 sDelimEx 1
      = (.found [(window sDelimEx).getD 0 0], { sDelimEx with bstart := sDelimEx.bstart + 1 }) :=
  delimiter_single_byte_word 2 1 sDelimEx (by decide) (by decide) (by decide)

end Mypager
